import Mathlib

/-!
Verification development for `publish_daily.py`, the daily-email publishing
script of this repository.  The script is embedded shallowly: text is
modelled as `List Char`, the regular expressions of the script are modelled
by explicit matching functions that follow Python's `re` semantics
(leftmost search, greedy/lazy quantifiers with backtracking) on the
concrete patterns used, and the file-system/process effects of `main` are
modelled by an explicit environment record.
-/

namespace PD

/-- Text is modelled as a list of characters. -/
abbrev Str := List Char

/-- Conversion from Lean string literals to the model's text type. -/
def sL (s : String) : Str := s.toList

/-- ASCII members of Python's whitespace class `\s` (the model restricts
attention to ASCII text, as all fixed patterns of the script are ASCII). -/
def isWs (c : Char) : Bool :=
  c = ' ' || c = '\t' || c = '\n' || c = '\r' || c = Char.ofNat 11 || c = Char.ofNat 12

/-- Decimal digit test, Python's `\d` on ASCII text. -/
def isDigit (c : Char) : Bool := '0' ≤ c && c ≤ '9'

/-- Upper-case letter test, the character class `[A-Z]`. -/
def isUpper (c : Char) : Bool := 'A' ≤ c && c ≤ 'Z'

/-- One step list of `re.sub(r"<[^>]+>", " ", ...)`: scanning left to right,
each maximal `<...>` group (at least one character between the brackets,
none of them `>`) is replaced by a single space.  The first argument is
fuel, always called with the length of the text, which is sufficient since
every step consumes at least one character. -/
def stripTagsF : Nat → Str → Str
  | 0, s => s
  | _, [] => []
  | f + 1, c :: rest =>
    if c = '<' then
      match rest.findIdx? (fun d => d = '>') with
      | none => '<' :: stripTagsF f rest
      | some 0 => '<' :: stripTagsF f rest
      | some (k + 1) => ' ' :: stripTagsF f (rest.drop (k + 2))
    else c :: stripTagsF f rest

/-- Model of `re.sub(r"<[^>]+>", " ", email_html)` from `extract_description`. -/
def stripTags (s : Str) : Str := stripTagsF s.length s

/-- Fuelled model of `re.sub(r"\s+", " ", ...)`: each maximal whitespace run
is replaced by a single space. -/
def collapseWsF : Nat → Str → Str
  | 0, s => s
  | _, [] => []
  | f + 1, c :: rest =>
    if isWs c then ' ' :: collapseWsF f (rest.dropWhile (fun d => isWs d))
    else c :: collapseWsF f rest

/-- Model of `re.sub(r"\s+", " ", text)` from `extract_description`. -/
def collapseWs (s : Str) : Str := collapseWsF s.length s

/-- The processed text that `extract_description` applies its patterns to. -/
def extractText (email_html : Str) : Str := collapseWs (stripTags email_html)

/-- Consume a literal pattern at the front of the text: the anchored match
of a regex literal.  Returns the remaining text on success. -/
def lit : Str → Str → Option Str
  | [], s => some s
  | _ :: _, [] => none
  | p :: ps, c :: cs => if c = p then lit ps cs else none

/-- Consume `\s*`: the greedy whitespace star.  It is deterministic here
because in every pattern of the script it is followed by a non-whitespace
literal, so backtracking can never help. -/
def skipWs (s : Str) : Str := s.dropWhile (fun c => isWs c)

/-- Consume `\s+` (at least one whitespace character, then maximally many). -/
def wsPlus : Str → Option Str
  | [] => none
  | c :: rest => if isWs c then some (skipWs rest) else none

/-- Consume `(\d+)`: a maximal nonempty digit group.  Greedy matching is
deterministic in the script's patterns because no following token can
match a digit. -/
def digits1 (s : Str) : Option (Str × Str) :=
  let d := s.takeWhile (fun c => isDigit c)
  if d = [] then none else some (d, s.dropWhile (fun c => isDigit c))

/-- Anchored match of `Total Tickers\s*:\s*(\d+)`, returning group 1. -/
def matchTickersAt (s : Str) : Option Str :=
  (lit (sL "Total Tickers") s).bind (fun s1 =>
    (lit [':'] (skipWs s1)).bind (fun s2 =>
      (digits1 (skipWs s2)).map (fun p => p.1)))

/-- Shared anchored tail `\s*:\s*(\d+)/100\s*[-–]\s*([A-Z][A-Z ]*)` of
the two sentiment patterns.  Returns (score group, raw label group). -/
def sentTail (s : Str) : Option (Str × Str) :=
  (lit [':'] (skipWs s)).bind (fun s1 =>
    (digits1 (skipWs s1)).bind (fun p =>
      (lit (sL "/100") p.2).bind (fun s2 =>
        match skipWs s2 with
        | [] => none
        | c :: rest =>
          if c = '-' || c = Char.ofNat 8211 then
            match skipWs rest with
            | [] => none
            | c2 :: rest2 =>
              if isUpper c2 then
                some (p.1, c2 :: rest2.takeWhile (fun d => isUpper d || d = ' '))
              else none
          else none)))

/-- Anchored match of `Stock Market\s*:\s*(\d+)/100\s*[-–]\s*([A-Z][A-Z ]*)`. -/
def matchStockAt (s : Str) : Option (Str × Str) :=
  (lit (sL "Stock Market") s).bind sentTail

/-- Anchored match of `Crypto(?:\s+Market)?\s*:\s*(\d+)/100\s*[-–]\s*([A-Z][A-Z ]*)`.
The optional group is greedy: the branch consuming `\s+Market` is tried
first and the rest of the pattern may backtrack into the empty branch. -/
def matchCryptoAt (s : Str) : Option (Str × Str) :=
  (lit (sL "Crypto") s).bind (fun s0 =>
    match (wsPlus s0).bind (fun s1 => (lit (sL "Market") s1).bind sentTail) with
    | some r => some r
    | none => sentTail s0)

/-- Anchored tail `\s+in\s+last\s+\d+\s+days?` of the congress-trades
pattern (the final optional `s` cannot affect success and is not part of
any group, so it is not consumed by the model). -/
def tradesTail (s : Str) : Option Unit :=
  (wsPlus s).bind (fun s1 =>
    (lit (sL "in") s1).bind (fun s2 =>
      (wsPlus s2).bind (fun s3 =>
        (lit (sL "last") s3).bind (fun s4 =>
          (wsPlus s4).bind (fun s5 =>
            (digits1 s5).bind (fun p =>
              (wsPlus p.2).bind (fun s6 =>
                (lit (sL "day") s6).map (fun _ => ()))))))))

/-- Anchored match of `(\d+)\s+trades?\s+in\s+last\s+\d+\s+days?`, returning
group 1.  The optional `s` after `trade` is greedy with backtracking. -/
def matchTradesAt (s : Str) : Option Str :=
  (digits1 s).bind (fun p =>
    (wsPlus p.2).bind (fun s1 =>
      (lit (sL "trade") s1).bind (fun s2 =>
        match s2 with
        | 's' :: rest =>
          (match tradesTail rest with
           | some _ => some p.1
           | none => (tradesTail s2).map (fun _ => p.1))
        | _ => (tradesTail s2).map (fun _ => p.1))))

/-- Model of `re.search`: try the anchored matcher at each position from
left to right and return the first success. -/
def reSearch {α : Type} (m : Str → Option α) : Str → Option α
  | [] => m []
  | c :: rest =>
    match m (c :: rest) with
    | some r => some r
    | none => reSearch m rest

/-- Model of Python `str.strip()` on ASCII text. -/
def pyStrip (s : Str) : Str :=
  ((s.dropWhile (fun c => isWs c)).reverse.dropWhile (fun c => isWs c)).reverse

/-- Letter test used by the model of `str.title()`. -/
def isAlpha (c : Char) : Bool := ('a' ≤ c && c ≤ 'z') || ('A' ≤ c && c ≤ 'Z')

/-- ASCII upper-casing of a character. -/
def toUpperC (c : Char) : Char := if 'a' ≤ c && c ≤ 'z' then Char.ofNat (c.toNat - 32) else c

/-- ASCII lower-casing of a character. -/
def toLowerC (c : Char) : Char := if 'A' ≤ c && c ≤ 'Z' then Char.ofNat (c.toNat + 32) else c

/-- Worker for the model of `str.title()`; the flag records whether the
previous character was a letter. -/
def pyTitleGo : Bool → Str → Str
  | _, [] => []
  | prevAlpha, c :: rest =>
    if isAlpha c then
      (if prevAlpha then toLowerC c else toUpperC c) :: pyTitleGo true rest
    else c :: pyTitleGo false rest

/-- Model of Python `str.title()` on ASCII text: the first letter of every
maximal letter run is upper-cased and the rest are lower-cased. -/
def pyTitle (s : Str) : Str := pyTitleGo false s

/-- Model of `sep.join(parts)`. -/
def joinSep (sep : Str) : List Str → Str
  | [] => []
  | [x] => x
  | x :: y :: rest => x ++ sep ++ joinSep sep (y :: rest)

/-- The fixed fallback description. -/
def fallbackDesc : Str := sL "Daily market predictions and analysis"

/-- Model of `extract_description` (publish_daily.py lines 45-81): strip
tags, collapse whitespace, search for the four statistic patterns, and
join the resulting fragments with `" &middot; "`, falling back to the
fixed string when no pattern matched. -/
def extract_description (email_html : Str) : Str :=
  let text := extractText email_html
  let parts : List Str :=
    (match reSearch matchTickersAt text with
     | some n => [n ++ sL " tickers analyzed"]
     | none => []) ++
    (match reSearch matchStockAt text with
     | some p => [sL "Market sentiment: " ++ pyTitle (pyStrip p.2) ++ sL " (" ++ p.1 ++ sL "/100)"]
     | none => []) ++
    (match reSearch matchCryptoAt text with
     | some p => [sL "Crypto: " ++ pyTitle (pyStrip p.2) ++ sL " (" ++ p.1 ++ sL "/100)"]
     | none => []) ++
    (match reSearch matchTradesAt text with
     | some n => [n ++ sL " congress trades tracked"]
     | none => [])
  if parts = [] then fallbackDesc
  else joinSep (sL " &middot; ") parts

/-- Index of the first occurrence of a substring: Python's `str.find`,
returning `none` instead of `-1` when the pattern does not occur. -/
def findSub (pat : Str) : Str → Option Nat
  | [] => if pat = [] then some 0 else none
  | c :: rest =>
    if pat.isPrefixOf (c :: rest) then some 0
    else (findSub pat rest).map (fun n => n + 1)

/-- Substring test: Python's `in` operator on strings. -/
def containsSub (pat s : Str) : Bool := (findSub pat s).isSome

/-- Number of positions at which a pattern occurs (used only to count the
month headers a generated region contains). -/
def countSub (pat : Str) : Str → Nat
  | [] => 0
  | c :: rest =>
    if pat.isPrefixOf (c :: rest) then 1 + countSub pat rest
    else countSub pat rest

/-- The entry area start marker `ENTRY_START` of publish_daily.py. -/
def ENTRY_START : Str := sL "<!-- DAILY-ENTRIES -->"

/-- The entry area end marker `ENTRY_END` of publish_daily.py. -/
def ENTRY_END : Str := sL "<!-- /DAILY-ENTRIES -->"

/-- Python dict assignment `d[k] = v` on a dict modelled as an association
list: overwrite the binding of an existing key in place, otherwise append. -/
def dictInsert : List (Str × Str) → Str → Str → List (Str × Str)
  | [], k, v => [(k, v)]
  | p :: rest, k, v => if p.1 = k then (k, v) :: rest else p :: dictInsert rest k v

/-- Python dict lookup `d.get(k)` on the association-list model. -/
def dictLookup : List (Str × Str) → Str → Option Str
  | [], _ => none
  | p :: rest, k => if p.1 = k then some p.2 else dictLookup rest k

/-- The key list of the association-list dict model. -/
def dictKeys (d : List (Str × Str)) : List Str := d.map (fun p => p.1)

/-- Number of bindings a key has (1 for every key of a well-formed dict). -/
def countKey (d : List (Str × Str)) (k : Str) : Nat :=
  (d.filter (fun p => p.1 = k)).length

/-- Numeric value of a decimal digit character. -/
def digitVal (c : Char) : Nat := c.toNat - 48

/-- Decimal digit character of a value below ten. -/
def digitChar : Nat → Char
  | 0 => '0' | 1 => '1' | 2 => '2' | 3 => '3' | 4 => '4'
  | 5 => '5' | 6 => '6' | 7 => '7' | 8 => '8' | _ => '9'

/-- CPython's `_strptime` month regex `1[0-2]|0[1-9]|[1-9]`, tried in this
alternation order on the front of the text. -/
def matchMonth : Str → Option (Nat × Str)
  | [] => none
  | '1' :: c :: r =>
    if '0' ≤ c && c ≤ '2' then some (10 + digitVal c, r) else some (1, c :: r)
  | '0' :: c :: r => if '1' ≤ c && c ≤ '9' then some (digitVal c, r) else none
  | c :: r => if '1' ≤ c && c ≤ '9' then some (digitVal c, r) else none

/-- CPython's `_strptime` day regex `3[01]|[12]\d|0[1-9]|[1-9]`, tried in
this alternation order on the front of the text. -/
def matchDay : Str → Option (Nat × Str)
  | [] => none
  | '3' :: c :: r =>
    if c = '0' || c = '1' then some (30 + digitVal c, r) else some (3, c :: r)
  | c1 :: c2 :: r =>
    if (c1 = '1' || c1 = '2') && isDigit c2 then some (10 * digitVal c1 + digitVal c2, r)
    else if c1 = '0' && ('1' ≤ c2 && c2 ≤ '9') then some (digitVal c2, r)
    else if '1' ≤ c1 && c1 ≤ '9' then some (digitVal c1, c2 :: r)
    else none
  | [c] => if '1' ≤ c && c ≤ '9' then some (digitVal c, []) else none

/-- Gregorian leap-year test, as in Python's `datetime`. -/
def isLeap (y : Nat) : Bool := (y % 4 = 0 && y % 100 ≠ 0) || y % 400 = 0

/-- Length of a month, as validated by the `datetime` constructor. -/
def daysInMonth (y m : Nat) : Nat :=
  if m = 2 then (if isLeap y then 29 else 28)
  else if m = 4 || m = 6 || m = 9 || m = 11 then 30 else 31

/-- Model of `datetime.strptime(s, "%Y-%m-%d")`: exactly four digits for
`%Y`, the CPython alternations for `%m` and `%d`, no text left over, and
the calendar validation performed by the `datetime` constructor.  Returns
`none` where Python raises `ValueError`. -/
def pyStrptimeYmd (s : Str) : Option (Nat × Nat × Nat) :=
  match s with
  | a :: b :: c :: d :: '-' :: rest =>
    if isDigit a && isDigit b && isDigit c && isDigit d then
      let y := 1000 * digitVal a + 100 * digitVal b + 10 * digitVal c + digitVal d
      match matchMonth rest with
      | none => none
      | some (m, rest1) =>
        match rest1 with
        | '-' :: rest2 =>
          match matchDay rest2 with
          | none => none
          | some (dd, rest3) =>
            if rest3 = [] && 1 ≤ y && dd ≤ daysInMonth y m then some (y, m, dd)
            else none
        | _ => none
    else none
  | _ => none

/-- Fuelled decimal rendering of a natural number (`str(n)` in Python);
fuel `n + 1` always suffices. -/
def toDigitsF : Nat → Nat → Str
  | 0, _ => []
  | f + 1, n =>
    if n < 10 then [digitChar n]
    else toDigitsF f (n / 10) ++ [digitChar (n % 10)]

/-- Decimal rendering of a natural number, `str(n)`. -/
def toDigits (n : Nat) : Str := toDigitsF (n + 1) n

/-- Fixed-width zero-padded decimal rendering (width as first argument). -/
def padN : Nat → Nat → Str
  | 0, _ => []
  | w + 1, n => digitChar (n / 10 ^ w) :: padN w (n % 10 ^ w)

/-- Two-digit zero-padded rendering. -/
def pad2 (n : Nat) : Str := padN 2 n

/-- Four-digit zero-padded rendering. -/
def pad4 (n : Nat) : Str := padN 4 n

/-- The canonical zero-padded `YYYY-MM-DD` rendering of a date. -/
def padDate (y m d : Nat) : Str := pad4 y ++ '-' :: (pad2 m ++ '-' :: pad2 d)

/-- Calendar validity of a date triple as accepted by Python's `datetime`
with a four-digit year. -/
def validYMD (y m d : Nat) : Prop :=
  1 ≤ y ∧ y ≤ 9999 ∧ 1 ≤ m ∧ m ≤ 12 ∧ 1 ≤ d ∧ d ≤ daysInMonth y m

/-- English month names as produced by `strftime('%B')` in the C locale. -/
def monthName : Nat → Str
  | 1 => sL "January"
  | 2 => sL "February"
  | 3 => sL "March"
  | 4 => sL "April"
  | 5 => sL "May"
  | 6 => sL "June"
  | 7 => sL "July"
  | 8 => sL "August"
  | 9 => sL "September"
  | 10 => sL "October"
  | 11 => sL "November"
  | 12 => sL "December"
  | _ => []

/-- English weekday names indexed with 0 = Sunday. -/
def weekdayName : Nat → Str
  | 0 => sL "Sunday"
  | 1 => sL "Monday"
  | 2 => sL "Tuesday"
  | 3 => sL "Wednesday"
  | 4 => sL "Thursday"
  | 5 => sL "Friday"
  | _ => sL "Saturday"

/-- Sakamoto's day-of-week algorithm (0 = Sunday), the value underlying
`strftime('%A')`. -/
def sakamoto (y m d : Nat) : Nat :=
  let t : List Nat := [0, 3, 2, 5, 0, 3, 5, 1, 4, 6, 2, 4]
  let y1 := if m < 3 then y - 1 else y
  (y1 + y1 / 4 - y1 / 100 + y1 / 400 + t.getD (m - 1) 0 + d) % 7

/-- Model of `format_date_display` (lines 84-86): for example
`February 18, 2026 &middot; Wednesday`. -/
def format_date_display (y m d : Nat) : Str :=
  monthName m ++ sL " " ++ toDigits d ++ sL ", " ++ toDigits y ++ sL " &middot; " ++
    weekdayName (sakamoto y m d)

/-- Model of `format_month_header` (lines 89-91): for example
`February 2026`. -/
def format_month_header (y m : Nat) : Str := monthName m ++ sL " " ++ toDigits y

/-- The part of an update card after its two-space indentation; split off
so that the card matcher can be related to it directly. -/
def cardBody (date_str : Str) (y m d : Nat) (description : Str) : Str :=
  sL "<div class=\"update-card\">\n    <a href=\"" ++ date_str ++
  sL ".html\">\n      <div class=\"update-date\">" ++ format_date_display y m d ++
  sL "</div>\n      <div class=\"update-title\">Daily Market Update</div>\n      <p class=\"update-desc\">" ++
  description ++ sL "</p>\n    </a>\n  </div>"

/-- Model of `generate_card` (lines 288-299). -/
def generate_card (date_str : Str) (y m d : Nat) (description : Str) : Str :=
  sL "  " ++ cardBody date_str y m d description

/-- One element of the `lines` list that `generate_entries_html` builds: a
month header or an update card (with its parsed date and description). -/
inductive Item where
  | header (y m : Nat)
  | card (date_str : Str) (y m d : Nat) (description : Str)

/-- The lines contributed to the `lines` list by one item: the header
f-string, or the empty line followed by the card. -/
def itemLines : Item → List Str
  | Item.header y m =>
    [sL "\n  <h4 style=\"margin-top: 30px;\">" ++ format_month_header y m ++ sL "</h4>"]
  | Item.card dstr y m d desc => [[], generate_card dstr y m d desc]

/-- The loop of `generate_entries_html` (lines 312-330) over the sorted
keys, producing the item list; `none` models the uncaught `ValueError`
raised by `datetime.strptime` on a key it cannot parse.  The second
argument is the `current_month` loop state. -/
def itemsOf (entries : List (Str × Str)) : List Str → Option (Nat × Nat) → Option (List Item)
  | [], _ => some []
  | dstr :: rest, cur =>
    match pyStrptimeYmd dstr with
    | none => none
    | some (y, m, d) =>
      let desc := (dictLookup entries dstr).getD fallbackDesc
      match itemsOf entries rest (some (y, m)) with
      | none => none
      | some items =>
        if cur = some (y, m) then some (Item.card dstr y m d desc :: items)
        else some (Item.header y m :: Item.card dstr y m d desc :: items)

/-- Date strings extracted from the card items, with their descriptions,
in item order. -/
def cardsOf : List Item → List (Str × Str)
  | [] => []
  | Item.header _ _ :: rest => cardsOf rest
  | Item.card dstr _ _ _ desc :: rest => (dstr, desc) :: cardsOf rest

/-- Number of month-header items. -/
def headerCount : List Item → Nat
  | [] => 0
  | Item.header _ _ :: rest => headerCount rest + 1
  | Item.card _ _ _ _ _ :: rest => headerCount rest

/-- Strict lexicographic order on (year, month) pairs. -/
def pairLtB (a b : Nat × Nat) : Bool := a.1 < b.1 || (a.1 = b.1 && a.2 < b.2)

/-- Strict lexicographic order on (year, month, day) triples. -/
def tripLtB (a b : Nat × Nat × Nat) : Bool :=
  a.1 < b.1 || (a.1 = b.1 && pairLtB a.2 b.2)

/-- A header for month (y, m) may follow the state `cur`: it must be
strictly below the previous header's month, when there is one. -/
def hdrOK (cur : Option (Nat × Nat)) (y m : Nat) : Bool :=
  match cur with
  | none => true
  | some p => pairLtB (y, m) p

/-- A card for date (y, m, d) may follow the state `last`: it must be
strictly below the previous card's date, when there is one. -/
def lastOK (last : Option (Nat × Nat × Nat)) (y m d : Nat) : Bool :=
  match last with
  | none => true
  | some t => tripLtB (y, m, d) t

/-- Structural well-formedness of a generated item list: every card lies
under the header of its own month, consecutive headers are strictly
descending by (year, month), and the card dates are strictly descending
by calendar date.  The state is (month of the last header, date of the
last card). -/
def wfItems : Option (Nat × Nat) → Option (Nat × Nat × Nat) → List Item → Bool
  | _, _, [] => true
  | cur, last, Item.header y m :: rest =>
    hdrOK cur y m && wfItems (some (y, m)) last rest
  | cur, last, Item.card _ y m d _ :: rest =>
    (cur = some (y, m)) && lastOK last y m d && wfItems cur (some (y, m, d)) rest

/-- Python string comparison `a < b`: lexicographic by character code,
with a proper prefix smaller than the longer string. -/
def strLt : Str → Str → Bool
  | _, [] => false
  | [], _ :: _ => true
  | a :: as_, b :: bs => if a < b then true else if b < a then false else strLt as_ bs

/-- Insertion step of the descending sort: place the new string before the
first strictly smaller element. -/
def insertDesc (a : Str) : List Str → List Str
  | [] => [a]
  | x :: xs => if strLt x a then a :: x :: xs else x :: insertDesc a xs

/-- Model of `sorted(keys, reverse=True)`: for the duplicate-free key lists
of a dict the strictly descending order is unique, so insertion sort
computes exactly Python's result. -/
def sortRevStr (l : List Str) : List Str := l.foldr insertDesc []

/-- Model of `generate_entries_html` (lines 302-332): empty input yields
the empty region; otherwise the keys are sorted descending, the item list
is produced (propagating the `strptime` exception as `none`), the items
are rendered to lines, and the lines are joined with newlines. -/
def generate_entries_html (entries : List (Str × Str)) : Option Str :=
  match entries with
  | [] => some []
  | _ :: _ =>
    match itemsOf entries (sortRevStr (dictKeys entries)) none with
    | none => none
    | some items => some (joinSep ['\n'] (items.flatMap itemLines))

/-- Lazy dot-star with capture: `(.*?)stop` under `re.DOTALL`, followed by
the continuation `k` standing for the remainder of the pattern.  The
shortest captured prefix for which the stop string matches and the whole
continuation succeeds is chosen, exactly Python's backtracking order. -/
def lazyCap {α : Type} (stop : Str) (k : Str → Option α) : Str → Option (Str × α)
  | [] =>
    if stop.isPrefixOf ([] : Str) then
      match k (([] : Str).drop stop.length) with
      | some a => some ([], a)
      | none => none
    else none
  | c :: rest =>
    match
      (if stop.isPrefixOf (c :: rest) then
        match k ((c :: rest).drop stop.length) with
        | some a => some (([] : Str), a)
        | none => none
      else none) with
    | some r => some r
    | none =>
      match lazyCap stop k rest with
      | some (g, a) => some (c :: g, a)
      | none => none

/-- The opening literal of the card pattern of `parse_existing_entries`. -/
def cardLit : Str := sL "<div class=\"update-card\">"

/-- Tail of the card pattern after the description group's stop string:
`\s*</a>\s*</div>`. -/
def cardEnd3 (s : Str) : Option Str :=
  (lit (sL "</a>") (skipWs s)).bind (fun s1 => lit (sL "</div>") (skipWs s1))

/-- The description group and everything after it:
`(.*?)</p>\s*</a>\s*</div>`.  Returns (group 2, text after the match). -/
def cardTail3 (s : Str) : Option (Str × Str) := lazyCap (sL "</p>") cardEnd3 s

/-- From after `<div class="update-title">`:
`.*?</div>\s*<p class="update-desc">` and then the description tail. -/
def cardTail2 (s : Str) : Option (Str × Str) :=
  match lazyCap (sL "</div>")
      (fun s1 => (lit (sL "<p class=\"update-desc\">") (skipWs s1)).bind cardTail3) s with
  | some (_, r) => some r
  | none => none

/-- From after `<div class="update-date">`:
`.*?</div>\s*<div class="update-title">` and then the rest of the card. -/
def cardTail1 (s : Str) : Option (Str × Str) :=
  match lazyCap (sL "</div>")
      (fun s1 => (lit (sL "<div class=\"update-title\">") (skipWs s1)).bind cardTail2) s with
  | some (_, r) => some r
  | none => none

/-- The href date group `(\d{4}-\d{2}-\d{2})`: exactly ten characters of
the fixed shape.  Returns (group 1, rest). -/
def matchDateHref (s : Str) : Option (Str × Str) :=
  match s with
  | a :: b :: c :: d :: '-' :: e :: f :: '-' :: g :: h :: rest =>
    if isDigit a && isDigit b && isDigit c && isDigit d && isDigit e &&
        isDigit f && isDigit g && isDigit h then
      some ([a, b, c, d, '-', e, f, '-', g, h], rest)
    else none
  | _ => none

/-- Anchored match of the full card pattern of `parse_existing_entries`
(lines 269-278).  Returns (date group, description group, text after the
match). -/
def matchCardAt (s : Str) : Option (Str × Str × Str) :=
  (lit cardLit s).bind (fun s1 =>
    (lit (sL "<a href=\"") (skipWs s1)).bind (fun s2 =>
      (matchDateHref s2).bind (fun p =>
        (lit (sL ".html\">") p.2).bind (fun s3 =>
          (lit (sL "<div class=\"update-date\">") (skipWs s3)).bind (fun s4 =>
            (cardTail1 s4).map (fun q => (p.1, q.1, q.2)))))))

/-- Fuelled model of `card_pattern.finditer` together with the loop body
of `parse_existing_entries`: scan left to right, at a match emit the date
and the stripped description and resume after the match, otherwise step
one character.  Fuel equal to the length of the text is always sufficient
because every match consumes at least one character. -/
def scanCardsF : Nat → Str → List (Str × Str)
  | 0, _ => []
  | _ + 1, [] => []
  | f + 1, c :: rest =>
    match matchCardAt (c :: rest) with
    | some t => (t.1, pyStrip t.2.1) :: scanCardsF f t.2.2
    | none => scanCardsF f rest

/-- The card scan of `parse_existing_entries` over the marker region. -/
def scanCards (s : Str) : List (Str × Str) := scanCardsF s.length s

/-- Model of `parse_existing_entries` (lines 254-285): locate the first
occurrences of the two markers (empty dict when either is missing), slice
the region between them, and collect the matched cards into a dict. -/
def parse_existing_entries (index_html : Str) : List (Str × Str) :=
  match findSub ENTRY_START index_html, findSub ENTRY_END index_html with
  | some si, some ei =>
    let content := (index_html.take ei).drop (si + ENTRY_START.length)
    (scanCards content).foldl (fun d p => dictInsert d p.1 p.2) []
  | _, _ => []

/-- Possible outcomes of `update_index`: the `sys.exit(1)` on missing
markers, an uncaught `ValueError` escaping from `datetime.strptime` in
`generate_entries_html`, or the new index document that is written. -/
inductive UpdateResult where
  | exitErr
  | raised
  | ok (newHtml : Str)
deriving DecidableEq

/-- The document carried by a successful `update_index` outcome. -/
def updateResultHtml : UpdateResult → Option Str
  | UpdateResult.ok h => some h
  | _ => none

/-- Model of `update_index` (lines 335-365): check that both markers occur
(`sys.exit(1)` otherwise), parse the existing entries, insert or overwrite
the target entry, regenerate the region, and splice it between the first
occurrences of the markers, keeping everything outside them.  The marker
search is shared between the membership test and the splice, exactly as
`find` recomputes the same first occurrences in the script. -/
def update_index (html date_str description : Str) : UpdateResult :=
  match findSub ENTRY_START html, findSub ENTRY_END html with
  | some si, some ei =>
    let entries := dictInsert (parse_existing_entries html) date_str description
    match generate_entries_html entries with
    | none => UpdateResult.raised
    | some entries_html =>
      UpdateResult.ok
        (html.take (si + ENTRY_START.length) ++ entries_html ++ sL "\n  " ++ html.drop ei)
  | _, _ => UpdateResult.exitErr

/-- The inputs `main` depends on: the date argument, whether the source
file exists, the source file's content, and the index document's content. -/
structure Env where
  dateArg : Str
  sourceExists : Bool
  sourceHtml : Str
  indexHtml : Str

/-- Possible terminations of `main` (the git steps, which run only after
the index was written, are outside the model): the three `sys.exit(1)`
calls with their diagnostics, an uncaught exception, or success carrying
the new index document and the extracted description. -/
inductive Outcome where
  | exit1BadDate
  | exit1NoSource
  | exit1NoMarkers
  | raised
  | ok (newIndex : Str) (description : Str)
deriving DecidableEq

/-- Model of `main` (lines 368-410): validate the date, check the source
file, extract the description from the copied email, and update the
index. -/
def mainModel (e : Env) : Outcome :=
  match pyStrptimeYmd e.dateArg with
  | none => Outcome.exit1BadDate
  | some _ =>
    if e.sourceExists = false then Outcome.exit1NoSource
    else
      match update_index e.indexHtml e.dateArg (extract_description e.sourceHtml) with
      | UpdateResult.exitErr => Outcome.exit1NoMarkers
      | UpdateResult.raised => Outcome.raised
      | UpdateResult.ok h => Outcome.ok h (extract_description e.sourceHtml)

/-- Whether an outcome is one of the `sys.exit(1)`-with-diagnostic
terminations. -/
def isExit1 : Outcome → Bool
  | Outcome.exit1BadDate => true
  | Outcome.exit1NoSource => true
  | Outcome.exit1NoMarkers => true
  | _ => false

/-- The content of the index file when the run terminates: it is rewritten
only by a successful `update_index`. -/
def finalIndex (e : Env) : Str :=
  match mainModel e with
  | Outcome.ok h _ => h
  | _ => e.indexHtml

/-- The month key of a date string, as computed inside
`generate_entries_html`. -/
def monthKeyOf (k : Str) : Option (Nat × Nat) :=
  (pyStrptimeYmd k).map (fun t => (t.1, t.2.1))

/-- A key in the canonical zero-padded form of a valid calendar date. -/
def paddedKey (k : Str) : Prop := ∃ y m d, validYMD y m d ∧ k = padDate y m d

/-- The rendered region of an item list: equal to joining the rendered
lines with newlines, in a shape convenient for induction. -/
def seg : List Item → Str
  | [] => []
  | [it] => joinSep ['\n'] (itemLines it)
  | it :: rest => joinSep ['\n'] (itemLines it) ++ '\n' :: seg rest

/-- Absence of the two-character sequence `<` then `c2`, with no trailing
`<` either: a sufficient condition for a text to contain no prefix of a
pattern starting with those two characters, even when followed by
arbitrary text. -/
def pairFree (c2 : Char) : Str → Bool
  | [] => true
  | c :: rest =>
    if c = '<' then
      match rest with
      | [] => false
      | c2' :: _ => (c2' ≠ c2) && pairFree c2 rest
    else pairFree c2 rest

/-- The facts about an item that make the card scan recover it exactly: a
card's date string is a zero-padded valid date and its description is
clean. -/
def itemClean : Item → Prop
  | Item.header _ _ => True
  | Item.card dstr y m d desc =>
    validYMD y m d ∧ dstr = padDate y m d ∧ (∀ c ∈ desc, c ≠ '<') ∧ pyStrip desc = desc

/-- A description that survives the regenerate/parse round trip: it
contains no `<` character (so no stop string of the card pattern can cut
it short) and is invariant under `strip()`. -/
def cleanDesc (v : Str) : Prop := (∀ c ∈ v, c ≠ '<') ∧ pyStrip v = v

/-- The document text strictly between an end-marker occurrence at `ei`
and a later start-marker occurrence at `si` (used to describe the
duplication `update_index` produces when the markers are swapped). -/
def betweenText (html : Str) (si ei : Nat) : Str :=
  (html.drop (ei + ENTRY_END.length)).take (si - (ei + ENTRY_END.length))

/-- Number of maximal runs in a month-key sequence, relative to a running
current month: exactly the number of headers the generation loop emits. -/
def runCount : Option (Nat × Nat) → List (Nat × Nat) → Nat
  | _, [] => 0
  | cur, p :: rest => (if cur = some p then 0 else 1) + runCount (some p) rest

/-- The sequence of run representatives of a month-key sequence, relative
to a running current month. -/
def squeezeRuns : Option (Nat × Nat) → List (Nat × Nat) → List (Nat × Nat)
  | _, [] => []
  | cur, p :: rest =>
    if cur = some p then squeezeRuns cur rest else p :: squeezeRuns (some p) rest

/-! ## Basic lemmas about the text primitives -/

/-- A prefix occurrence makes the substring test succeed. -/
theorem containsSub_of_prefix {p s : Str} (h : p <+: s) : containsSub p s = true := by
  cases s with
  | nil =>
    have : p = [] := List.prefix_nil.mp h
    simp [containsSub, findSub, this]
  | cons c rest =>
    have : p.isPrefixOf (c :: rest) = true := List.isPrefixOf_iff_prefix.mpr h
    simp [containsSub, findSub, this]

/-- The join of a nonempty list starts with its first element. -/
theorem joinSep_cons_prefix (sep a : Str) (l : List Str) : a <+: joinSep sep (a :: l) := by
  cases l with
  | nil => simp [joinSep]
  | cons b bs =>
    show a <+: a ++ sep ++ joinSep sep (b :: bs)
    rw [List.append_assoc]
    exact List.prefix_append a _

/-! ## Claim C5: the merge is insert-or-overwrite keyed by date -/

/-- Looking up the key just inserted returns the inserted value. -/
theorem dictLookup_insert_self (d : List (Str × Str)) (k v : Str) :
    dictLookup (dictInsert d k v) k = some v := by
  induction d with
  | nil => simp [dictInsert, dictLookup]
  | cons p rest ih =>
    by_cases h : p.1 = k
    · simp [dictInsert, dictLookup, h]
    · simp [dictInsert, dictLookup, h, ih]

/-- Inserting one key does not change the binding of any other key. -/
theorem dictLookup_insert_other (d : List (Str × Str)) (k v k' : Str) (h : k' ≠ k) :
    dictLookup (dictInsert d k v) k' = dictLookup d k' := by
  have hkk : ¬ (k = k') := fun hh => h hh.symm
  induction d with
  | nil => simp [dictInsert, dictLookup, hkk]
  | cons p rest ih =>
    by_cases hp : p.1 = k
    · rw [show dictInsert (p :: rest) k v = (k, v) :: rest by simp [dictInsert, hp]]
      have hpk : ¬ (p.1 = k') := by rw [hp]; exact hkk
      simp [dictLookup, hkk, hpk]
    · rw [show dictInsert (p :: rest) k v = p :: dictInsert rest k v by simp [dictInsert, hp]]
      by_cases hp' : p.1 = k'
      · simp [dictLookup, hp']
      · simp [dictLookup, hp', ih]

/-- One-step unfolding of the binding count. -/
theorem countKey_cons (p : Str × Str) (rest : List (Str × Str)) (k : Str) :
    countKey (p :: rest) k = (if p.1 = k then 1 else 0) + countKey rest k := by
  by_cases hp : p.1 = k
  · simp [countKey, List.filter_cons, hp]
    omega
  · simp [countKey, List.filter_cons, hp]

/-- A key that is absent has no bindings. -/
theorem countKey_eq_zero (d : List (Str × Str)) (k : Str) (h : k ∉ dictKeys d) :
    countKey d k = 0 := by
  induction d with
  | nil => simp [countKey]
  | cons p rest ih =>
    have h1 : ¬ (p.1 = k) := by
      intro hh
      exact h (by simp [dictKeys, hh])
    have h2 : k ∉ dictKeys rest := by
      intro hh
      exact h (by simp [dictKeys] at hh ⊢; exact Or.inr hh)
    rw [countKey_cons, if_neg h1, ih h2]

/-- The key list after an insertion. -/
theorem dictKeys_insert (d : List (Str × Str)) (k v : Str) :
    dictKeys (dictInsert d k v) =
      if k ∈ dictKeys d then dictKeys d else dictKeys d ++ [k] := by
  induction d with
  | nil => simp [dictInsert, dictKeys]
  | cons p rest ih =>
    by_cases hp : p.1 = k
    · rw [show dictInsert (p :: rest) k v = (k, v) :: rest by simp [dictInsert, hp]]
      have hk : k ∈ dictKeys (p :: rest) := by simp [dictKeys, hp.symm]
      rw [if_pos hk]
      simp [dictKeys, hp]
    · rw [show dictInsert (p :: rest) k v = p :: dictInsert rest k v by simp [dictInsert, hp]]
      have h1 : dictKeys (p :: dictInsert rest k v) = p.1 :: dictKeys (dictInsert rest k v) := rfl
      have h2 : dictKeys (p :: rest) = p.1 :: dictKeys rest := rfl
      rw [h1, ih, h2]
      by_cases hm : k ∈ dictKeys rest
      · rw [if_pos hm, if_pos (List.mem_cons_of_mem _ hm)]
      · rw [if_neg hm, if_neg ?_]
        · rfl
        · intro hc
          rcases List.mem_cons.mp hc with hc | hc
          · exact hp hc.symm
          · exact hm hc

/-- Inserting into a duplicate-free dict leaves exactly one binding for the
inserted key. -/
theorem countKey_insert (d : List (Str × Str)) (k v : Str)
    (h : (dictKeys d).Nodup) : countKey (dictInsert d k v) k = 1 := by
  induction d with
  | nil => simp [dictInsert, countKey, List.filter_cons]
  | cons p rest ih =>
    have hnd : (dictKeys rest).Nodup := (List.nodup_cons.mp h).2
    have hnm : p.1 ∉ dictKeys rest := (List.nodup_cons.mp h).1
    by_cases hp : p.1 = k
    · rw [show dictInsert (p :: rest) k v = (k, v) :: rest by simp [dictInsert, hp]]
      rw [countKey_cons]
      have : countKey rest k = 0 := countKey_eq_zero rest k (hp ▸ hnm)
      simp [this]
    · rw [show dictInsert (p :: rest) k v = p :: dictInsert rest k v by simp [dictInsert, hp]]
      rw [countKey_cons, if_neg hp, ih hnd]

/-- Insertion preserves duplicate-freeness of the key list. -/
theorem dictInsert_nodup (d : List (Str × Str)) (k v : Str)
    (h : (dictKeys d).Nodup) : (dictKeys (dictInsert d k v)).Nodup := by
  rw [dictKeys_insert]
  by_cases hm : k ∈ dictKeys d
  · rw [if_pos hm]; exact h
  · rw [if_neg hm]
    refine List.Nodup.append h (List.nodup_singleton k) ?_
    intro a ha hb
    rcases List.mem_singleton.mp hb with rfl
    exact hm ha

/-- C5: merging the same date twice with two different descriptions leaves
exactly one entry under that date, its description is the second one
merged, and every other date's binding is unchanged. -/
theorem C5_merge_overwrite (d : List (Str × Str)) (date v1 v2 : Str)
    (hnd : (dictKeys d).Nodup) :
    countKey (dictInsert (dictInsert d date v1) date v2) date = 1 ∧
    ∀ k, dictLookup (dictInsert (dictInsert d date v1) date v2) k =
      if k = date then some v2 else dictLookup d k := by
  refine ⟨countKey_insert _ _ _ (dictInsert_nodup d date v1 hnd), fun k => ?_⟩
  by_cases hk : k = date
  · subst hk; simp [dictLookup_insert_self]
  · rw [if_neg hk, dictLookup_insert_other _ _ _ _ hk, dictLookup_insert_other _ _ _ _ hk]

/-- Witness for C5 at a concrete dict and pair of descriptions. -/
theorem C5_merge_overwrite_witness :
    ((dictKeys [((sL "2026-02-17", sL "old"))]).Nodup) ∧
    countKey (dictInsert (dictInsert [(sL "2026-02-17", sL "old")] (sL "2026-02-18") (sL "first")) (sL "2026-02-18") (sL "second")) (sL "2026-02-18") = 1 ∧
    dictLookup (dictInsert (dictInsert [(sL "2026-02-17", sL "old")] (sL "2026-02-18") (sL "first")) (sL "2026-02-18") (sL "second")) (sL "2026-02-18") = some (sL "second") := by
  have h := C5_merge_overwrite [(sL "2026-02-17", sL "old")] (sL "2026-02-18") (sL "first") (sL "second") (by decide)
  exact ⟨by decide, h.1, by rw [h.2 (sL "2026-02-18")]; simp⟩

/-! ## Claims C6, C7, C8: the description extractor -/

set_option maxRecDepth 40000

/-- C6 (counterexample): on the spec's example input the extractor does not
return the claimed string, whose fragments are separated by a plain
middle-dot character: the code joins with the HTML entity `" &middot; "`. -/
theorem C6_counterexample :
    ¬ extract_description (sL "...Total Tickers: 630... Stock Market: 40/100 - FEAR... Crypto Market: 9/100 - EXTREME FEAR... 50 trades in last 14 days...")
      = sL "630 tickers analyzed · Market sentiment: Fear (40/100) · Crypto: Extreme Fear (9/100) · 50 congress trades tracked" := by
  decide

/-- C6 (amended): on the spec's example input the extractor returns
exactly the four fragments joined with `" &middot; "`. -/
theorem C6_example_output :
    extract_description (sL "...Total Tickers: 630... Stock Market: 40/100 - FEAR... Crypto Market: 9/100 - EXTREME FEAR... 50 trades in last 14 days...")
      = sL "630 tickers analyzed &middot; Market sentiment: Fear (40/100) &middot; Crypto: Extreme Fear (9/100) &middot; 50 congress trades tracked" := by
  decide

/-- C7 (counterexample): an input holding the well-formed fragment
`Total Tickers: 8` (as well as an earlier one with a different count)
whose extractor output does not contain `8 tickers analyzed`: only the
first match is reported. -/
theorem C7_counterexample :
    containsSub (sL "Total Tickers: 8") (sL "Total Tickers: 7 Total Tickers: 8") = true ∧
    containsSub (sL "8 tickers analyzed")
      (extract_description (sL "Total Tickers: 7 Total Tickers: 8")) = false := by
  constructor
  · decide
  · decide

/-- C7 (amended): whenever the ticker pattern matches somewhere in the
tag-stripped, whitespace-collapsed text, the output contains
`N tickers analyzed` for the digit group N of the first such match. -/
theorem C7_first_match_reported (input n : Str)
    (h : reSearch matchTickersAt (extractText input) = some n) :
    containsSub (n ++ sL " tickers analyzed") (extract_description input) = true := by
  apply containsSub_of_prefix
  simp only [extract_description, h, List.singleton_append, List.cons_append]
  rw [if_neg (by simp)]
  exact joinSep_cons_prefix _ _ _

/-- Witness for the amended C7 at a concrete input. -/
theorem C7_first_match_reported_witness :
    reSearch matchTickersAt (extractText (sL "<p>Total Tickers: 630</p>")) = some (sL "630") ∧
    containsSub (sL "630" ++ sL " tickers analyzed")
      (extract_description (sL "<p>Total Tickers: 630</p>")) = true := by
  refine ⟨by decide, C7_first_match_reported _ _ (by decide)⟩

/-- C8: when none of the four statistic patterns matches anywhere in the
processed text, the extractor returns the fixed fallback string (and, the
model being a total function, it cannot raise). -/
theorem C8_fallback (input : Str)
    (h1 : reSearch matchTickersAt (extractText input) = none)
    (h2 : reSearch matchStockAt (extractText input) = none)
    (h3 : reSearch matchCryptoAt (extractText input) = none)
    (h4 : reSearch matchTradesAt (extractText input) = none) :
    extract_description input = fallbackDesc := by
  simp only [extract_description, h1, h2, h3, h4, List.append_nil, List.nil_append]
  rfl

/-- Witness for C8 at a concrete input with no recognizable statistic. -/
theorem C8_fallback_witness :
    reSearch matchTickersAt (extractText (sL "<h1>no stats today</h1>")) = none ∧
    extract_description (sL "<h1>no stats today</h1>") = fallbackDesc := by
  refine ⟨by decide, C8_fallback _ (by decide) (by decide) (by decide) (by decide)⟩

/-! ## Lemmas about first substring occurrences -/

/-- A found occurrence is a prefix occurrence that fits in the text. -/
theorem findSub_some {pat s : Str} {i : Nat} (h : findSub pat s = some i) :
    pat <+: s.drop i ∧ i + pat.length ≤ s.length := by
  induction s generalizing i with
  | nil =>
    by_cases hp : pat = ([] : Str)
    · simp [findSub, hp] at h
      subst h
      simp [hp]
    · simp [findSub, hp] at h
  | cons c rest ih =>
    by_cases hp : pat.isPrefixOf (c :: rest) = true
    · rw [show findSub pat (c :: rest) = some 0 by simp [findSub, hp]] at h
      injection h with h
      subst h
      have hpre := List.isPrefixOf_iff_prefix.mp hp
      exact ⟨by simpa using hpre, by simpa using hpre.length_le⟩
    · rw [show findSub pat (c :: rest) = (findSub pat rest).map (fun n => n + 1) by
        simp [findSub, hp]] at h
      rcases Option.map_eq_some'.mp h with ⟨j, hj, rfl⟩
      rcases ih hj with ⟨h1, h2⟩
      refine ⟨by simpa using h1, ?_⟩
      simp only [List.length_cons]
      omega

/-- There is no occurrence strictly before a found occurrence. -/
theorem findSub_first {pat s : Str} {i : Nat} (h : findSub pat s = some i) :
    ∀ j, j < i → ¬ pat <+: s.drop j := by
  induction s generalizing i with
  | nil =>
    by_cases hp : pat = ([] : Str)
    · simp [findSub, hp] at h
      subst h
      omega
    · simp [findSub, hp] at h
  | cons c rest ih =>
    by_cases hp : pat.isPrefixOf (c :: rest) = true
    · rw [show findSub pat (c :: rest) = some 0 by simp [findSub, hp]] at h
      injection h with h
      subst h
      omega
    · rw [show findSub pat (c :: rest) = (findSub pat rest).map (fun n => n + 1) by
        simp [findSub, hp]] at h
      rcases Option.map_eq_some'.mp h with ⟨j0, hj0, rfl⟩
      intro j hj
      cases j with
      | zero =>
        intro hc
        exact hp (List.isPrefixOf_iff_prefix.mpr (by simpa using hc))
      | succ j' =>
        have := ih hj0 j' (by omega)
        simpa using this

/-- Conversely, a prefix occurrence with nothing before it is what
`findSub` returns. -/
theorem findSub_of_first {pat s : Str} {i : Nat} (hpre : pat <+: s.drop i)
    (hmin : ∀ j, j < i → ¬ pat <+: s.drop j) : findSub pat s = some i := by
  induction s generalizing i with
  | nil =>
    have hp : pat = ([] : Str) := List.prefix_nil.mp (by simpa using hpre)
    cases i with
    | zero => simp [findSub, hp]
    | succ n =>
      exact absurd (by simp [hp]) (hmin 0 (Nat.succ_pos n))
  | cons c rest ih =>
    cases i with
    | zero =>
      have : pat.isPrefixOf (c :: rest) = true :=
        List.isPrefixOf_iff_prefix.mpr (by simpa using hpre)
      simp [findSub, this]
    | succ i' =>
      have hnp : ¬ pat.isPrefixOf (c :: rest) = true := by
        intro hc
        exact hmin 0 (Nat.succ_pos i') (by simpa using List.isPrefixOf_iff_prefix.mp hc)
      have : findSub pat rest = some i' :=
        ih (by simpa using hpre) (fun j hj => by
          have := hmin (j + 1) (by omega)
          simpa using this)
      simp [findSub, hnp, this]

/-! ## Claim C4: the exit-1 diagnostics of main -/

/-- `update_index` stops with the marker diagnostic exactly when a marker
is missing. -/
theorem update_index_exitErr_iff (html d desc : Str) :
    update_index html d desc = UpdateResult.exitErr ↔
      (findSub ENTRY_START html = none ∨ findSub ENTRY_END html = none) := by
  unfold update_index
  rcases hs : findSub ENTRY_START html with _ | si
  · simp
  · rcases he : findSub ENTRY_END html with _ | ei
    · simp
    · rcases hg : generate_entries_html
        (dictInsert (parse_existing_entries html) d desc) with _ | g
      · simp [hg]
      · simp [hg]

/-- C4: the model of `main` terminates through a `sys.exit(1)` diagnostic
exactly for an unparseable date argument, a missing source file, or an
index document missing one of the two markers; and whenever a marker is
missing the index document is left unchanged. -/
theorem C4_exit1_diagnostics (e : Env) :
    (isExit1 (mainModel e) = true ↔
      pyStrptimeYmd e.dateArg = none ∨ e.sourceExists = false ∨
      findSub ENTRY_START e.indexHtml = none ∨ findSub ENTRY_END e.indexHtml = none) ∧
    ((findSub ENTRY_START e.indexHtml = none ∨ findSub ENTRY_END e.indexHtml = none) →
      finalIndex e = e.indexHtml) := by
  rcases hd : pyStrptimeYmd e.dateArg with _ | t
  · exact ⟨by simp [mainModel, hd, isExit1], fun _ => by simp [finalIndex, mainModel, hd]⟩
  · rcases hsrc : e.sourceExists with _ | _
    · exact ⟨by simp [mainModel, hd, hsrc, isExit1],
        fun _ => by simp [finalIndex, mainModel, hd, hsrc]⟩
    · rcases hu : update_index e.indexHtml e.dateArg (extract_description e.sourceHtml)
        with _ | _ | nh
      · refine ⟨⟨fun _ => ?_, fun _ => ?_⟩, fun _ => ?_⟩
        · exact Or.inr (Or.inr ((update_index_exitErr_iff _ _ _).mp hu))
        · simp [mainModel, hd, hsrc, hu, isExit1]
        · simp [finalIndex, mainModel, hd, hsrc, hu]
      · have hmk : ¬ (findSub ENTRY_START e.indexHtml = none ∨
            findSub ENTRY_END e.indexHtml = none) := by
          intro hc
          have := (update_index_exitErr_iff e.indexHtml e.dateArg
            (extract_description e.sourceHtml)).mpr hc
          rw [hu] at this
          cases this
        refine ⟨⟨fun hex => ?_, fun hor => ?_⟩, fun hor => ?_⟩
        · simp [mainModel, hd, hsrc, hu, isExit1] at hex
        · rcases hor with hor | hor | hor | hor
          · exact Option.noConfusion hor
          · exact Bool.noConfusion hor
          · exact absurd (Or.inl hor) hmk
          · exact absurd (Or.inr hor) hmk
        · exact absurd hor hmk
      · have hmk : ¬ (findSub ENTRY_START e.indexHtml = none ∨
            findSub ENTRY_END e.indexHtml = none) := by
          intro hc
          have := (update_index_exitErr_iff e.indexHtml e.dateArg
            (extract_description e.sourceHtml)).mpr hc
          rw [hu] at this
          cases this
        refine ⟨⟨fun hex => ?_, fun hor => ?_⟩, fun hor => ?_⟩
        · simp [mainModel, hd, hsrc, hu, isExit1] at hex
        · rcases hor with hor | hor | hor | hor
          · exact Option.noConfusion hor
          · exact Bool.noConfusion hor
          · exact absurd (Or.inl hor) hmk
          · exact absurd (Or.inr hor) hmk
        · exact absurd hor hmk

/-- Witness for C4: a run against an index without markers exits through
the marker diagnostic and leaves the index unchanged. -/
theorem C4_exit1_diagnostics_witness :
    (isExit1 (mainModel (Env.mk (sL "2026-02-18") true (sL "email") (sL "<html>no markers</html>"))) = true ↔
      pyStrptimeYmd (sL "2026-02-18") = none ∨ (true : Bool) = false ∨
      findSub ENTRY_START (sL "<html>no markers</html>") = none ∨
      findSub ENTRY_END (sL "<html>no markers</html>") = none) ∧
    finalIndex (Env.mk (sL "2026-02-18") true (sL "email") (sL "<html>no markers</html>")) =
      sL "<html>no markers</html>" := by
  refine ⟨(C4_exit1_diagnostics _).1,
    (C4_exit1_diagnostics _).2 (Or.inl (by decide))⟩

/-! ## Claim C3: the splice frame property -/

/-- C3: when `update_index` writes a new document, that document begins
with the old document up to and including the start marker's first
occurrence and ends with the old document from the end marker's first
occurrence onward; only the region in between is regenerated. -/
theorem C3_splice_frame (html d desc new : Str) (si ei : Nat)
    (hs : findSub ENTRY_START html = some si)
    (he : findSub ENTRY_END html = some ei)
    (hok : update_index html d desc = UpdateResult.ok new) :
    new.take (si + ENTRY_START.length) = html.take (si + ENTRY_START.length) ∧
    ∃ mid, new = html.take (si + ENTRY_START.length) ++ mid ++ html.drop ei := by
  unfold update_index at hok
  rw [hs, he] at hok
  dsimp only at hok
  rcases hg : generate_entries_html (dictInsert (parse_existing_entries html) d desc)
    with _ | g
  · rw [hg] at hok
    exact UpdateResult.noConfusion hok
  · rw [hg] at hok
    injection hok with hnew
    subst hnew
    have hlen : (html.take (si + ENTRY_START.length)).length = si + ENTRY_START.length := by
      rw [List.length_take]
      have := (findSub_some hs).2
      omega
    constructor
    · rw [List.append_assoc, List.append_assoc, List.take_left' hlen]
    · exact ⟨g ++ sL "\n  ", by simp [List.append_assoc]⟩

/-- Witness for C3 on a concrete document with boilerplate on both sides. -/
theorem C3_splice_frame_witness :
    ((updateResultHtml (update_index (sL "A<!-- DAILY-ENTRIES -->B<!-- /DAILY-ENTRIES -->C") (sL "2026-02-18") (sL "w"))).getD []).take (1 + ENTRY_START.length) =
      (sL "A<!-- DAILY-ENTRIES -->B<!-- /DAILY-ENTRIES -->C").take (1 + ENTRY_START.length) ∧
    ∃ mid, (updateResultHtml (update_index (sL "A<!-- DAILY-ENTRIES -->B<!-- /DAILY-ENTRIES -->C") (sL "2026-02-18") (sL "w"))).getD [] =
      (sL "A<!-- DAILY-ENTRIES -->B<!-- /DAILY-ENTRIES -->C").take (1 + ENTRY_START.length) ++ mid ++
      (sL "A<!-- DAILY-ENTRIES -->B<!-- /DAILY-ENTRIES -->C").drop 24 := by
  exact C3_splice_frame (sL "A<!-- DAILY-ENTRIES -->B<!-- /DAILY-ENTRIES -->C")
    (sL "2026-02-18") (sL "w")
    ((updateResultHtml (update_index (sL "A<!-- DAILY-ENTRIES -->B<!-- /DAILY-ENTRIES -->C") (sL "2026-02-18") (sL "w"))).getD [])
    1 24 (by decide) (by decide) (by decide)

/-! ## Claim C10: swapped markers are not rejected and duplicate text -/

/-- Regenerating from a single valid entry succeeds and produces one
header followed by one card. -/
theorem generate_single (d desc : Str) (y m dd : Nat)
    (h : pyStrptimeYmd d = some (y, m, dd)) :
    generate_entries_html [(d, desc)] =
      some (joinSep ['\n']
        (([Item.header y m, Item.card d y m dd desc] : List Item).flatMap itemLines)) := by
  simp [generate_entries_html, dictKeys, sortRevStr, insertDesc, itemsOf, h, dictLookup]

/-- C10: when the first occurrence of the end marker lies strictly before
the first occurrence of the start marker, `update_index` does not stop
with the marker diagnostic (for any target date its own validation
accepts); it writes a document in which the text that lay between the end
marker and the start marker occurs both inside the preserved prefix and
inside the preserved suffix. -/
theorem C10_swapped_markers (html d desc : Str) (si ei y m dd : Nat)
    (hs : findSub ENTRY_START html = some si)
    (he : findSub ENTRY_END html = some ei)
    (horder : ei + ENTRY_END.length ≤ si)
    (hd : pyStrptimeYmd d = some (y, m, dd)) :
    update_index html d desc ≠ UpdateResult.exitErr ∧
    ∃ g, update_index html d desc =
        UpdateResult.ok (html.take (si + ENTRY_START.length) ++ g ++ html.drop ei) ∧
      (∃ u v, html.take (si + ENTRY_START.length) = u ++ betweenText html si ei ++ v) ∧
      (∃ u v, html.drop ei = u ++ betweenText html si ei ++ v) := by
  have hparse : parse_existing_entries html = [] := by
    unfold parse_existing_entries
    rw [hs, he]
    dsimp only
    have hcl : (html.take ei).length ≤ si + ENTRY_START.length := by
      rw [List.length_take]
      omega
    rw [List.drop_eq_nil_of_le hcl]
    rfl
  have hupd : update_index html d desc =
      UpdateResult.ok (html.take (si + ENTRY_START.length) ++
        (joinSep ['\n'] (([Item.header y m, Item.card d y m dd desc] : List Item).flatMap itemLines) ++ sL "\n  ") ++ html.drop ei) := by
    unfold update_index
    rw [hs, he]
    dsimp only
    rw [hparse]
    rw [show dictInsert [] d desc = [(d, desc)] from rfl]
    rw [generate_single d desc y m dd hd]
    simp [List.append_assoc]
  refine ⟨by rw [hupd]; exact fun hc => UpdateResult.noConfusion hc, _, hupd, ?_, ?_⟩
  · -- the between text occurs inside the preserved prefix
    refine ⟨html.take (ei + ENTRY_END.length), (html.drop si).take ENTRY_START.length, ?_⟩
    have h1 : html.take (si + ENTRY_START.length) =
        (html.take (si + ENTRY_START.length)).take (ei + ENTRY_END.length) ++
        (html.take (si + ENTRY_START.length)).drop (ei + ENTRY_END.length) :=
      (List.take_append_drop _ _).symm
    have h2 : (html.take (si + ENTRY_START.length)).take (ei + ENTRY_END.length) =
        html.take (ei + ENTRY_END.length) := by
      rw [List.take_take]
      congr 1
      omega
    have h3 : (html.take (si + ENTRY_START.length)).drop (ei + ENTRY_END.length) =
        (html.drop (ei + ENTRY_END.length)).take (si + ENTRY_START.length - (ei + ENTRY_END.length)) :=
      List.drop_take _ _ _
    have h4 : si + ENTRY_START.length - (ei + ENTRY_END.length) =
        (si - (ei + ENTRY_END.length)) + ENTRY_START.length := by omega
    have h5 : (html.drop (ei + ENTRY_END.length)).take ((si - (ei + ENTRY_END.length)) + ENTRY_START.length) =
        betweenText html si ei ++
        ((html.drop (ei + ENTRY_END.length)).drop (si - (ei + ENTRY_END.length))).take ENTRY_START.length := by
      rw [betweenText]
      exact List.take_add _ _ _
    have h6 : (html.drop (ei + ENTRY_END.length)).drop (si - (ei + ENTRY_END.length)) =
        html.drop si := by
      rw [List.drop_drop]
      congr 1
      omega
    conv_lhs => rw [h1, h2, h3, h4, h5, h6]
    simp [List.append_assoc]
  · -- the between text occurs inside the preserved suffix
    refine ⟨(html.drop ei).take ENTRY_END.length, html.drop si, ?_⟩
    have h1 : html.drop ei =
        (html.drop ei).take ENTRY_END.length ++ (html.drop ei).drop ENTRY_END.length :=
      (List.take_append_drop _ _).symm
    have h2 : (html.drop ei).drop ENTRY_END.length = html.drop (ei + ENTRY_END.length) :=
      List.drop_drop _ _ _
    have h3 : html.drop (ei + ENTRY_END.length) =
        betweenText html si ei ++
        (html.drop (ei + ENTRY_END.length)).drop (si - (ei + ENTRY_END.length)) := by
      rw [betweenText]
      exact (List.take_append_drop _ _).symm
    have h4 : (html.drop (ei + ENTRY_END.length)).drop (si - (ei + ENTRY_END.length)) =
        html.drop si := by
      rw [List.drop_drop]
      congr 1
      omega
    conv_lhs => rw [h1, h2, h3, h4]
    simp [List.append_assoc]

/-- Witness for C10 on a concrete document whose end marker comes first. -/
theorem C10_swapped_markers_witness :
    update_index (sL "A<!-- /DAILY-ENTRIES -->MID<!-- DAILY-ENTRIES -->Z") (sL "2026-02-18") (sL "w") ≠ UpdateResult.exitErr ∧
    ∃ g, update_index (sL "A<!-- /DAILY-ENTRIES -->MID<!-- DAILY-ENTRIES -->Z") (sL "2026-02-18") (sL "w") =
        UpdateResult.ok ((sL "A<!-- /DAILY-ENTRIES -->MID<!-- DAILY-ENTRIES -->Z").take (27 + ENTRY_START.length) ++ g ++
          (sL "A<!-- /DAILY-ENTRIES -->MID<!-- DAILY-ENTRIES -->Z").drop 1) ∧
      (∃ u v, (sL "A<!-- /DAILY-ENTRIES -->MID<!-- DAILY-ENTRIES -->Z").take (27 + ENTRY_START.length) =
        u ++ betweenText (sL "A<!-- /DAILY-ENTRIES -->MID<!-- DAILY-ENTRIES -->Z") 27 1 ++ v) ∧
      (∃ u v, (sL "A<!-- /DAILY-ENTRIES -->MID<!-- DAILY-ENTRIES -->Z").drop 1 =
        u ++ betweenText (sL "A<!-- /DAILY-ENTRIES -->MID<!-- DAILY-ENTRIES -->Z") 27 1 ++ v) := by
  exact C10_swapped_markers _ _ _ 27 1 2026 2 18 (by decide) (by decide) (by decide) (by decide)

/-! ## Claim C9: lenient date validation versus the strict card parser -/

/-- C9: the date string `2026-2-8` is accepted by the orchestrator's
validation, yet after publishing it the regenerated document contains the
card (with href `2026-2-8.html`) while `parse_existing_entries` recovers
nothing, so the entry is silently dropped on the next run; moreover the
string-descending sort places `2026-2-8` before `2026-10-05` although its
calendar date is the earlier one. -/
theorem C9_lenient_date_dropped :
    pyStrptimeYmd (sL "2026-2-8") = some (2026, 2, 8) ∧
    (∃ new, update_index (sL "<html><!-- DAILY-ENTRIES --><!-- /DAILY-ENTRIES --></html>")
        (sL "2026-2-8") (sL "demo") = UpdateResult.ok new ∧
      containsSub (sL "<a href=\"2026-2-8.html\">") new = true ∧
      parse_existing_entries new = []) ∧
    sortRevStr [sL "2026-2-8", sL "2026-10-05"] = [sL "2026-2-8", sL "2026-10-05"] ∧
    pyStrptimeYmd (sL "2026-10-05") = some (2026, 10, 5) ∧
    tripLtB (2026, 2, 8) (2026, 10, 5) = true := by
  refine ⟨by decide, ⟨_, rfl, by decide, by decide⟩, by decide, by decide, by decide⟩

/-! ## Counterexamples to claims C1 and C2 as stated -/

/-- C1 (counterexample): merging a target entry whose description contains
card-closing markup loses part of that description on reparse: after the
cycle the recovered binding of the target date is `A`, not the
description that was merged, so the recovered set is not the prior set
with the target entry inserted. -/
theorem C1_counterexample :
    ∃ new, update_index (sL "<html><!-- DAILY-ENTRIES --><!-- /DAILY-ENTRIES --></html>")
        (sL "2026-02-18") (sL "A</p> </a> </div>") = UpdateResult.ok new ∧
      dictLookup (parse_existing_entries new) (sL "2026-02-18") = some (sL "A") ∧
      dictLookup (dictInsert (parse_existing_entries (sL "<html><!-- DAILY-ENTRIES --><!-- /DAILY-ENTRIES --></html>"))
          (sL "2026-02-18") (sL "A</p> </a> </div>")) (sL "2026-02-18") =
        some (sL "A</p> </a> </div>") ∧
      ¬ (sL "A" : Str) = sL "A</p> </a> </div>" := by
  refine ⟨_, rfl, by decide, by decide, by decide⟩

/-- C2 (counterexample): an entry mapping whose keys span exactly the two
month pairs (2026, 1) and (2026, 2) — one key unpadded — for which the
regenerated region contains three month headers, not two. -/
theorem C2_counterexample :
    (∀ kv ∈ ([(sL "2026-01-15", sL "a"), (sL "2026-1-20", sL "b"), (sL "2026-02-01", sL "c")] : List (Str × Str)),
      monthKeyOf kv.1 = some (2026, 1) ∨ monthKeyOf kv.1 = some (2026, 2)) ∧
    monthKeyOf (sL "2026-01-15") = some (2026, 1) ∧
    monthKeyOf (sL "2026-02-01") = some (2026, 2) ∧
    ∃ g, generate_entries_html
        [(sL "2026-01-15", sL "a"), (sL "2026-1-20", sL "b"), (sL "2026-02-01", sL "c")] = some g ∧
      countSub (sL "<h4") g = 3 := by
  refine ⟨by decide, by decide, by decide, _, rfl, by decide⟩

/-! ## The descending key sort -/

/-- The string order is irreflexive. -/
theorem strLt_irrefl (a : Str) : strLt a a = false := by
  induction a with
  | nil => rfl
  | cons c rest ih => simp [strLt, ih, lt_irrefl]

/-- The string order is transitive. -/
theorem strLt_trans : ∀ {a b c : Str}, strLt a b = true → strLt b c = true → strLt a c = true := by
  intro a b c h1 h2
  induction b generalizing a c with
  | nil =>
    cases a <;> simp [strLt] at h1
  | cons bc bs ih =>
    cases a with
    | nil =>
      cases c with
      | nil => simp [strLt] at h2
      | cons cc cs => simp [strLt]
    | cons ac as_ =>
      cases c with
      | nil => simp [strLt] at h2
      | cons cc cs =>
        simp only [strLt] at h1 h2 ⊢
        by_cases hab : ac < bc
        · by_cases hbc2 : bc < cc
          · simp [lt_trans hab hbc2]
          · by_cases hcb : cc < bc
            · simp [hbc2, hcb] at h2
            · have : bc = cc := le_antisymm (not_lt.mp hcb) (not_lt.mp hbc2)
              subst this
              simp [hab]
        · by_cases hba : bc < ac
          · simp [hab, hba] at h1
          · have : ac = bc := le_antisymm (not_lt.mp hba) (not_lt.mp hab)
            subst this
            simp only [lt_irrefl, if_false] at h1 h2 ⊢
            by_cases hbc2 : ac < cc
            · simp [hbc2]
            · by_cases hcb : cc < ac
              · simp [hbc2, hcb] at h2
              · have : ac = cc := le_antisymm (not_lt.mp hcb) (not_lt.mp hbc2)
                subst this
                simp only [lt_irrefl, if_false] at h1 h2 ⊢
                exact ih h1 h2

/-- The string order is total: two strings are comparable or equal. -/
theorem strLt_total : ∀ (a b : Str), strLt a b = true ∨ strLt b a = true ∨ a = b
  | [], [] => Or.inr (Or.inr rfl)
  | [], _ :: _ => Or.inl (by simp [strLt])
  | _ :: _, [] => Or.inr (Or.inl (by simp [strLt]))
  | ac :: as_, bc :: bs => by
    rcases lt_trichotomy ac bc with h | h | h
    · exact Or.inl (by simp [strLt, h])
    · subst h
      rcases strLt_total as_ bs with h2 | h2 | h2
      · exact Or.inl (by simp [strLt, lt_irrefl, h2])
      · exact Or.inr (Or.inl (by simp [strLt, lt_irrefl, h2]))
      · exact Or.inr (Or.inr (by rw [h2]))
    · exact Or.inr (Or.inl (by simp [strLt, h]))

/-- Two strings with the order failing in both directions are equal. -/
theorem strLt_eq_of_not {a b : Str} (h1 : strLt a b = false) (h2 : strLt b a = false) :
    a = b := by
  rcases strLt_total a b with h | h | h
  · rw [h] at h1; exact Bool.noConfusion h1
  · rw [h] at h2; exact Bool.noConfusion h2
  · exact h

/-- The order is asymmetric. -/
theorem strLt_asymm {a b : Str} (h : strLt a b = true) : strLt b a = false := by
  by_contra hc
  have hc' : strLt b a = true := by
    cases hab : strLt b a
    · exact absurd hab hc
    · rfl
  have := strLt_trans h hc'
  rw [strLt_irrefl] at this
  exact Bool.noConfusion this

/-- Membership in the insertion step. -/
theorem mem_insertDesc {z a : Str} : ∀ {l : List Str}, z ∈ insertDesc a l ↔ z = a ∨ z ∈ l := by
  intro l
  induction l with
  | nil => simp [insertDesc]
  | cons x xs ih =>
    by_cases hx : strLt x a
    · rw [show insertDesc a (x :: xs) = a :: x :: xs by simp [insertDesc, hx]]
      simp [List.mem_cons]
      try tauto
    · rw [show insertDesc a (x :: xs) = x :: insertDesc a xs by simp [insertDesc, hx]]
      simp [List.mem_cons, ih]
      try tauto

/-- The insertion step is a permutation of consing. -/
theorem insertDesc_perm (a : Str) : ∀ (l : List Str), List.Perm (insertDesc a l) (a :: l) := by
  intro l
  induction l with
  | nil => exact List.Perm.refl _
  | cons x xs ih =>
    by_cases hx : strLt x a
    · rw [show insertDesc a (x :: xs) = a :: x :: xs by simp [insertDesc, hx]]
    · rw [show insertDesc a (x :: xs) = x :: insertDesc a xs by simp [insertDesc, hx]]
      exact List.Perm.trans (List.Perm.cons x ih) (List.Perm.swap a x xs)

/-- The descending sort is a permutation of its input. -/
theorem sortRevStr_perm (l : List Str) : List.Perm (sortRevStr l) l := by
  induction l with
  | nil => exact List.Perm.refl _
  | cons x xs ih =>
    rw [show sortRevStr (x :: xs) = insertDesc x (sortRevStr xs) from rfl]
    exact List.Perm.trans (insertDesc_perm x _) (List.Perm.cons x ih)

/-- The insertion step preserves the pairwise descending invariant. -/
theorem insertDesc_sorted (a : Str) : ∀ (l : List Str),
    l.Pairwise (fun x y => strLt x y = false) →
    (insertDesc a l).Pairwise (fun x y => strLt x y = false) := by
  intro l
  induction l with
  | nil => intro _; simp [insertDesc]
  | cons x xs ih =>
    intro h
    rcases List.pairwise_cons.mp h with ⟨hx, hxs⟩
    by_cases hxa : strLt x a
    · rw [show insertDesc a (x :: xs) = a :: x :: xs by simp [insertDesc, hxa]]
      refine List.pairwise_cons.mpr ⟨?_, h⟩
      intro z hz
      rcases List.mem_cons.mp hz with rfl | hz
      · exact strLt_asymm hxa
      · -- a is above x, x is above z
        have hxz : strLt x z = false := hx z hz
        cases haz : strLt a z
        · rfl
        · exfalso
          rcases strLt_total x z with h2 | h2 | h2
          · rw [h2] at hxz; exact Bool.noConfusion hxz
          · have := strLt_trans haz h2
            have h3 := strLt_trans this hxa
            rw [strLt_irrefl] at h3
            exact Bool.noConfusion h3
          · subst h2
            have h3 := strLt_trans haz hxa
            rw [strLt_irrefl] at h3
            exact Bool.noConfusion h3
    · rw [show insertDesc a (x :: xs) = x :: insertDesc a xs by
        simp only [insertDesc, hxa]; simp]
      refine List.pairwise_cons.mpr ⟨?_, ih hxs⟩
      intro z hz
      rcases mem_insertDesc.mp hz with rfl | hz
      · cases hxz : strLt x z
        · rfl
        · exact absurd hxz (by simp [hxa])
      · exact hx z hz

/-- The descending sort is pairwise descending. -/
theorem sortRevStr_sorted (l : List Str) :
    (sortRevStr l).Pairwise (fun x y => strLt x y = false) := by
  induction l with
  | nil => simp [sortRevStr]
  | cons x xs ih => exact insertDesc_sorted x _ ih

/-- On a duplicate-free list the descending sort is strictly descending. -/
theorem sortRevStr_strict (l : List Str) (h : l.Nodup) :
    (sortRevStr l).Pairwise (fun x y => strLt y x = true) := by
  have h1 := sortRevStr_sorted l
  have h2 : (sortRevStr l).Nodup := ((sortRevStr_perm l).nodup_iff).mpr h
  have h3 := List.Pairwise.and h1 h2
  refine h3.imp ?_
  intro x y hxy
  rcases strLt_total x y with hc | hc | hc
  · rw [hxy.1] at hc; exact Bool.noConfusion hc
  · exact hc
  · exact absurd hc hxy.2

/-! ## Zero-padded dates: lexicographic order and strptime round trip -/

/-- Digit characters compare like their values. -/
theorem digitChar_lt_iff {a b : Nat} (ha : a ≤ 9) (hb : b ≤ 9) :
    digitChar a < digitChar b ↔ a < b := by
  interval_cases a <;> interval_cases b <;> decide

/-- Digit characters are digits. -/
theorem isDigit_digitChar (n : Nat) : isDigit (digitChar n) = true := by
  unfold digitChar
  split <;> decide

/-- The value of a digit character below ten. -/
theorem digitVal_digitChar {n : Nat} (h : n ≤ 9) : digitVal (digitChar n) = n := by
  interval_cases n <;> decide

/-- Fixed-width zero-padded renderings of equal width compare
lexicographically like their values, with ties decided by the following
text. -/
theorem padN_lt : ∀ (w a b : Nat) (s t : Str), a < 10 ^ w → b < 10 ^ w →
    strLt (padN w a ++ s) (padN w b ++ t) =
      (if a < b then true else if b < a then false else strLt s t) := by
  intro w
  induction w with
  | zero =>
    intro a b s t ha hb
    interval_cases a
    interval_cases b
    simp [padN]
  | succ w ih =>
    intro a b s t ha hb
    have hpow : 0 < 10 ^ w := Nat.pos_pow_of_pos w (by omega)
    have h10 : 10 ^ (w + 1) = 10 * 10 ^ w := by ring
    have hqa : a / 10 ^ w ≤ 9 := by
      have := (Nat.div_lt_iff_lt_mul hpow).mpr (by omega : a < 10 * 10 ^ w)
      omega
    have hqb : b / 10 ^ w ≤ 9 := by
      have := (Nat.div_lt_iff_lt_mul hpow).mpr (by omega : b < 10 * 10 ^ w)
      omega
    have hra : a % 10 ^ w < 10 ^ w := Nat.mod_lt a hpow
    have hrb : b % 10 ^ w < 10 ^ w := Nat.mod_lt b hpow
    have hdeca := Nat.div_add_mod a (10 ^ w)
    have hdecb := Nat.div_add_mod b (10 ^ w)
    show strLt (digitChar (a / 10 ^ w) :: (padN w (a % 10 ^ w) ++ s))
        (digitChar (b / 10 ^ w) :: (padN w (b % 10 ^ w) ++ t)) = _
    by_cases hq : a / 10 ^ w < b / 10 ^ w
    · have hc : digitChar (a / 10 ^ w) < digitChar (b / 10 ^ w) :=
        (digitChar_lt_iff hqa hqb).mpr hq
      have hab : a < b := by
        by_contra hc2
        have hba : b ≤ a := by omega
        have h5 : b / 10 ^ w ≤ a / 10 ^ w := Nat.div_le_div_right hba
        omega
      simp [strLt, hc, hab]
    · by_cases hq2 : b / 10 ^ w < a / 10 ^ w
      · have hc : digitChar (b / 10 ^ w) < digitChar (a / 10 ^ w) :=
          (digitChar_lt_iff hqb hqa).mpr hq2
        have hab : b < a := by
          by_contra hc2
          have hba : a ≤ b := by omega
          have h5 : a / 10 ^ w ≤ b / 10 ^ w := Nat.div_le_div_right hba
          omega
        have hnc : ¬ digitChar (a / 10 ^ w) < digitChar (b / 10 ^ w) := by
          intro hcc
          exact absurd ((digitChar_lt_iff hqa hqb).mp hcc) hq
        simp [strLt, hnc, hc, hab, Nat.lt_asymm hab]
      · have hqe : a / 10 ^ w = b / 10 ^ w := by omega
        have hnc : ¬ digitChar (a / 10 ^ w) < digitChar (b / 10 ^ w) := by
          rw [hqe]; exact lt_irrefl _
        have hnc2 : ¬ digitChar (b / 10 ^ w) < digitChar (a / 10 ^ w) := by
          rw [hqe]; exact lt_irrefl _
        have hiff : a < b ↔ a % 10 ^ w < b % 10 ^ w := by
          constructor <;> intro hlt
          · by_contra hc
            have : b ≤ a := by
              have e1 : 10 ^ w * (a / 10 ^ w) + a % 10 ^ w = a := hdeca
              have e2 : 10 ^ w * (b / 10 ^ w) + b % 10 ^ w = b := hdecb
              rw [hqe] at e1
              omega
            omega
          · have e1 : 10 ^ w * (a / 10 ^ w) + a % 10 ^ w = a := hdeca
            have e2 : 10 ^ w * (b / 10 ^ w) + b % 10 ^ w = b := hdecb
            rw [hqe] at e1
            omega
        rw [hqe]
        show (if digitChar (b / 10 ^ w) < digitChar (b / 10 ^ w) then true
          else if digitChar (b / 10 ^ w) < digitChar (b / 10 ^ w) then false
          else strLt (padN w (a % 10 ^ w) ++ s) (padN w (b % 10 ^ w) ++ t)) = _
        rw [if_neg (lt_irrefl _), if_neg (lt_irrefl _), ih _ _ _ _ hra hrb]
        by_cases hab : a < b
        · simp [hab, hiff.mp hab]
        · by_cases hba : b < a
          · have : ¬ a % 10 ^ w < b % 10 ^ w := fun hc => hab (hiff.mpr hc)
            have hba' : b % 10 ^ w < a % 10 ^ w := by
              rcases Nat.lt_trichotomy (a % 10 ^ w) (b % 10 ^ w) with hc | hc | hc
              · exact absurd hc this
              · exfalso
                have e1 : 10 ^ w * (a / 10 ^ w) + a % 10 ^ w = a := hdeca
                have e2 : 10 ^ w * (b / 10 ^ w) + b % 10 ^ w = b := hdecb
                rw [hqe] at e1
                omega
              · exact hc
            simp [hab, hba, this, hba']
            try omega
          · have he : a = b := by omega
            subst he
            simp [lt_irrefl]

/-- The zero-padded date rendering compares like the date triple. -/
theorem padDate_lt (y m d y' m' d' : Nat)
    (hy : y ≤ 9999) (hy' : y' ≤ 9999) (hm : m ≤ 99) (hm' : m' ≤ 99)
    (hd : d ≤ 99) (hd' : d' ≤ 99) :
    strLt (padDate y m d) (padDate y' m' d') = tripLtB (y, m, d) (y', m', d') := by
  have h1 : padDate y m d = padN 4 y ++ ('-' :: (padN 2 m ++ ('-' :: (padN 2 d ++ [])))) := by
    simp [padDate, pad4, pad2]
  have h1' : padDate y' m' d' = padN 4 y' ++ ('-' :: (padN 2 m' ++ ('-' :: (padN 2 d' ++ [])))) := by
    simp [padDate, pad4, pad2]
  rw [h1, h1', padN_lt 4 y y' _ _ (by omega) (by omega)]
  by_cases hyy : y < y'
  · simp [tripLtB, hyy]
  · by_cases hyy2 : y' < y
    · have hne : ¬ (y = y') := by omega
      simp [tripLtB, pairLtB, hyy, hyy2, hne]
    · have : y = y' := by omega
      subst this
      rw [if_neg hyy, if_neg hyy2]
      rw [show strLt ('-' :: (padN 2 m ++ ('-' :: (padN 2 d ++ []))))
          ('-' :: (padN 2 m' ++ ('-' :: (padN 2 d' ++ [])))) =
          strLt (padN 2 m ++ ('-' :: (padN 2 d ++ []))) (padN 2 m' ++ ('-' :: (padN 2 d' ++ []))) by
        simp [strLt, lt_irrefl]]
      rw [padN_lt 2 m m' _ _ (by omega) (by omega)]
      by_cases hmm : m < m'
      · simp [tripLtB, pairLtB, hmm]
      · by_cases hmm2 : m' < m
        · have hne2 : ¬ (m = m') := by omega
          simp [tripLtB, pairLtB, hmm, hmm2, hne2]
        · have : m = m' := by omega
          subst this
          rw [if_neg hmm, if_neg hmm2]
          rw [show strLt ('-' :: (padN 2 d ++ [])) ('-' :: (padN 2 d' ++ [])) =
              strLt (padN 2 d ++ []) (padN 2 d' ++ []) by simp [strLt, lt_irrefl]]
          rw [padN_lt 2 d d' _ _ (by omega) (by omega)]
          by_cases hdd : d < d'
          · simp [tripLtB, pairLtB, hdd]
          · by_cases hdd2 : d' < d
            · have hne3 : ¬ (d = d') := by omega
              simp [tripLtB, pairLtB, hdd, hdd2, hne3]
            · have : d = d' := by omega
              subst this
              simp [tripLtB, pairLtB, strLt, lt_irrefl]

/-- The CPython month alternation accepts exactly the two-digit padded
rendering of a real month, consuming both digits. -/
theorem matchMonth_pad2 (m : Nat) (h1 : 1 ≤ m) (h2 : m ≤ 12) (rest : Str) :
    matchMonth (pad2 m ++ rest) = some (m, rest) := by
  interval_cases m <;> rfl

/-- The CPython day alternation accepts exactly the two-digit padded
rendering of a real day, consuming both digits. -/
theorem matchDay_pad2 (d : Nat) (h1 : 1 ≤ d) (h2 : d ≤ 31) (rest : Str) :
    matchDay (pad2 d ++ rest) = some (d, rest) := by
  interval_cases d <;> rfl

/-- Every month has at most 31 days. -/
theorem daysInMonth_le (y m : Nat) : daysInMonth y m ≤ 31 := by
  unfold daysInMonth
  split
  · split <;> omega
  · split <;> omega

/-- Reduction of `pyStrptimeYmd` on a text of the accepted shape. -/
theorem pyStrptimeYmd_shape (c3 c2 c1 c0 : Char) (rest rest2 : Str) (m dd : Nat)
    (hdig : (isDigit c3 && isDigit c2 && isDigit c1 && isDigit c0) = true)
    (hm : matchMonth rest = some (m, '-' :: rest2))
    (hd : matchDay rest2 = some (dd, []))
    (hy : 1 ≤ 1000 * digitVal c3 + 100 * digitVal c2 + 10 * digitVal c1 + digitVal c0)
    (hdays : dd ≤ daysInMonth (1000 * digitVal c3 + 100 * digitVal c2 + 10 * digitVal c1 + digitVal c0) m) :
    pyStrptimeYmd (c3 :: c2 :: c1 :: c0 :: '-' :: rest) =
      some (1000 * digitVal c3 + 100 * digitVal c2 + 10 * digitVal c1 + digitVal c0, m, dd) := by
  simp only [pyStrptimeYmd, hdig, hm, hd]
  simp [hy, hdays]

/-- `strptime` recovers exactly the date from its zero-padded rendering. -/
theorem pyStrptimeYmd_padDate (y m d : Nat) (h : validYMD y m d) :
    pyStrptimeYmd (padDate y m d) = some (y, m, d) := by
  obtain ⟨hy1, hy2, hm1, hm2, hd1, hd2⟩ := h
  have hd31 : d ≤ 31 := le_trans hd2 (daysInMonth_le y m)
  have hshape : padDate y m d =
      digitChar (y / 1000) :: digitChar (y % 1000 / 100) :: digitChar (y % 1000 % 100 / 10) ::
        digitChar (y % 1000 % 100 % 10) :: '-' :: (pad2 m ++ '-' :: pad2 d) := by
    simp [padDate, pad4, pad2, padN]
  have hY : 1000 * digitVal (digitChar (y / 1000)) + 100 * digitVal (digitChar (y % 1000 / 100)) +
      10 * digitVal (digitChar (y % 1000 % 100 / 10)) + digitVal (digitChar (y % 1000 % 100 % 10)) = y := by
    rw [digitVal_digitChar (by omega), digitVal_digitChar (by omega),
      digitVal_digitChar (by omega), digitVal_digitChar (by omega)]
    omega
  have hm' : matchMonth (pad2 m ++ '-' :: pad2 d) = some (m, '-' :: pad2 d) :=
    matchMonth_pad2 m hm1 hm2 _
  have hd' : matchDay (pad2 d) = some (d, []) := by
    have := matchDay_pad2 d hd1 hd31 []
    simpa using this
  rw [hshape, pyStrptimeYmd_shape _ _ _ _ _ (pad2 d) m d
      (by simp [isDigit_digitChar]) hm' hd'
      (by rw [hY]; exact hy1) (by rw [hY]; exact hd2), hY]

/-! ## Grouping and ordering of the regenerated region -/

/-- The month-pair order is irreflexive. -/
theorem pairLtB_irrefl (p : Nat × Nat) : pairLtB p p = false := by
  simp [pairLtB]

/-- The month-pair order is transitive. -/
theorem pairLtB_trans {a b c : Nat × Nat} (h1 : pairLtB a b = true) (h2 : pairLtB b c = true) :
    pairLtB a c = true := by
  obtain ⟨a1, a2⟩ := a
  obtain ⟨b1, b2⟩ := b
  obtain ⟨c1, c2⟩ := c
  simp [pairLtB] at h1 h2 ⊢
  omega

/-- A strictly earlier date has an equal or strictly earlier month pair. -/
theorem tripLtB_month {t1 t2 : Nat × Nat × Nat} (h : tripLtB t1 t2 = true) :
    (t1.1, t1.2.1) = (t2.1, t2.2.1) ∨ pairLtB (t1.1, t1.2.1) (t2.1, t2.2.1) = true := by
  obtain ⟨y1, m1, d1⟩ := t1
  obtain ⟨y2, m2, d2⟩ := t2
  simp [tripLtB, pairLtB] at h ⊢
  omega

/-- The generation loop, on any strictly date-descending list of parseable
keys, succeeds and produces a well-grouped item list with one header per
month run. -/
theorem itemsOf_wf (entries : List (Str × Str)) :
    ∀ (l : List Str) (cur : Option (Nat × Nat)) (last : Option (Nat × Nat × Nat)),
    (∀ k ∈ l, ∃ t, pyStrptimeYmd k = some t) →
    List.Chain' (fun a b => ∀ ta tb, pyStrptimeYmd a = some ta → pyStrptimeYmd b = some tb →
      tripLtB tb ta = true) l →
    (∀ k t, l.head? = some k → pyStrptimeYmd k = some t →
      (∀ tl, last = some tl → tripLtB t tl = true) ∧
      (∀ mc, cur = some mc → ((t.1, t.2.1) = mc ∨ pairLtB (t.1, t.2.1) mc = true))) →
    ∃ items, itemsOf entries l cur = some items ∧
      wfItems cur last items = true ∧
      headerCount items = runCount cur (l.filterMap monthKeyOf) := by
  intro l
  induction l with
  | nil =>
    intro cur last _ _ _
    exact ⟨[], rfl, rfl, rfl⟩
  | cons k l' ih =>
    intro cur last hv hchain hhead
    obtain ⟨⟨y, m, d⟩, hk⟩ := hv k (List.mem_cons_self k l')
    have hkm : monthKeyOf k = some (y, m) := by simp [monthKeyOf, hk]
    have hv' : ∀ k1 ∈ l', ∃ t, pyStrptimeYmd k1 = some t :=
      fun k1 hk1 => hv k1 (List.mem_cons_of_mem _ hk1)
    have hchain' : List.Chain' _ l' := List.Chain'.tail hchain
    have hhead' : ∀ k1 t1, l'.head? = some k1 → pyStrptimeYmd k1 = some t1 →
        (∀ tl, (some (y, m, d) : Option (Nat × Nat × Nat)) = some tl → tripLtB t1 tl = true) ∧
        (∀ mc, (some (y, m) : Option (Nat × Nat)) = some mc →
          ((t1.1, t1.2.1) = mc ∨ pairLtB (t1.1, t1.2.1) mc = true)) := by
      intro k1 t1 hh1 hp1
      cases l' with
      | nil => exact absurd hh1 (by simp)
      | cons k1' l'' =>
        have hk1e : k1 = k1' := by
          simp at hh1
          exact hh1.symm
        subst hk1e
        have hrel := (List.chain'_cons.mp hchain).1
        have htr : tripLtB t1 (y, m, d) = true := hrel (y, m, d) t1 hk hp1
        refine ⟨fun tl htl => ?_, fun mc hmc => ?_⟩
        · injection htl with htl
          rw [← htl]
          exact htr
        · injection hmc with hmc
          rw [← hmc]
          exact tripLtB_month htr
    obtain ⟨items', hit', hwf', hhc'⟩ := ih (some (y, m)) (some (y, m, d)) hv' hchain' hhead'
    have hlast : ∀ tl, last = some tl → tripLtB (y, m, d) tl = true :=
      (hhead k (y, m, d) rfl hk).1
    by_cases hcur : cur = some (y, m)
    · refine ⟨Item.card k y m d ((dictLookup entries k).getD fallbackDesc) :: items', ?_, ?_, ?_⟩
      · simp only [itemsOf, hk, hit', if_pos hcur]
      · simp only [wfItems, hcur, Bool.and_eq_true]
        refine ⟨⟨by simp, ?_⟩, hwf'⟩
        cases last with
        | none => rfl
        | some tl => exact hlast tl rfl
      · rw [show (k :: l').filterMap monthKeyOf = (y, m) :: l'.filterMap monthKeyOf by
          simp [hkm]]
        rw [show headerCount (Item.card k y m d ((dictLookup entries k).getD fallbackDesc) :: items') =
          headerCount items' from rfl]
        rw [hhc', runCount, hcur]
        simp
    · refine ⟨Item.header y m ::
        Item.card k y m d ((dictLookup entries k).getD fallbackDesc) :: items', ?_, ?_, ?_⟩
      · simp only [itemsOf, hk, hit', if_neg hcur]
      · have hmons := (hhead k (y, m, d) rfl hk).2
        have hhd : hdrOK cur y m = true := by
          clear hhead hchain hv
          cases hc : cur with
          | none => rfl
          | some mc =>
            rcases hmons mc hc with he | hlt
            · exfalso
              apply hcur
              rw [hc, he]
            · simpa [hdrOK] using hlt
        simp only [wfItems, Bool.and_eq_true]
        refine ⟨hhd, ⟨by simp, ?_⟩, hwf'⟩
        cases last with
        | none => rfl
        | some tl => exact hlast tl rfl
      · rw [show (k :: l').filterMap monthKeyOf = (y, m) :: l'.filterMap monthKeyOf by
          simp [hkm]]
        rw [show headerCount (Item.header y m ::
            Item.card k y m d ((dictLookup entries k).getD fallbackDesc) :: items') =
          headerCount items' + 1 from rfl]
        rw [hhc', runCount, if_neg hcur]
        omega

/-- The run count is the length of the run-representative list. -/
theorem runCount_eq_squeeze : ∀ (M : List (Nat × Nat)) (cur : Option (Nat × Nat)),
    runCount cur M = (squeezeRuns cur M).length := by
  intro M
  induction M with
  | nil => intro cur; rfl
  | cons p rest ih =>
    intro cur
    by_cases hc : cur = some p
    · simp [runCount, squeezeRuns, hc, ih]
    · simp [runCount, squeezeRuns, hc, ih]
      omega

/-- Every element survives squeezing unless it equals the running month. -/
theorem mem_squeezeRuns_of {x : Nat × Nat} : ∀ (M : List (Nat × Nat)) (cur : Option (Nat × Nat)),
    x ∈ M → x ∈ squeezeRuns cur M ∨ some x = cur := by
  intro M
  induction M with
  | nil => intro cur h; cases h
  | cons p rest ih =>
    intro cur h
    by_cases hc : cur = some p
    · rw [show squeezeRuns cur (p :: rest) = squeezeRuns cur rest by simp [squeezeRuns, hc]]
      rcases List.mem_cons.mp h with rfl | h
      · exact Or.inr hc.symm
      · exact ih cur h
    · rw [show squeezeRuns cur (p :: rest) = p :: squeezeRuns (some p) rest by
        simp [squeezeRuns, hc]]
      rcases List.mem_cons.mp h with he2 | h
      · rw [he2]
        exact Or.inl (List.mem_cons_self _ _)
      · rcases ih (some p) h with hm | he
        · exact Or.inl (List.mem_cons_of_mem _ hm)
        · rw [Option.some.inj he]
          exact Or.inl (List.mem_cons_self _ _)

/-- Squeezing yields a sublist of the original elements. -/
theorem squeezeRuns_subset {x : Nat × Nat} : ∀ (M : List (Nat × Nat)) (cur : Option (Nat × Nat)),
    x ∈ squeezeRuns cur M → x ∈ M := by
  intro M
  induction M with
  | nil => intro cur h; cases h
  | cons p rest ih =>
    intro cur h
    by_cases hc : cur = some p
    · rw [show squeezeRuns cur (p :: rest) = squeezeRuns cur rest by simp [squeezeRuns, hc]] at h
      exact List.mem_cons_of_mem _ (ih cur h)
    · rw [show squeezeRuns cur (p :: rest) = p :: squeezeRuns (some p) rest by
        simp [squeezeRuns, hc]] at h
      rcases List.mem_cons.mp h with he2 | h
      · rw [he2]
        exact List.mem_cons_self _ _
      · exact List.mem_cons_of_mem _ (ih (some p) h)

/-- On a non-increasing month sequence the run representatives are
strictly descending. -/
theorem squeezeRuns_sorted : ∀ (M : List (Nat × Nat)) (p : Nat × Nat),
    List.Chain' (fun a b => b = a ∨ pairLtB b a = true) (p :: M) →
    (p :: squeezeRuns (some p) M).Pairwise (fun a b => pairLtB b a = true) := by
  intro M
  induction M with
  | nil =>
    intro p _
    simp [squeezeRuns]
  | cons q rest ih =>
    intro p hchain
    have hrel := (List.chain'_cons.mp hchain).1
    have htail : List.Chain' _ (q :: rest) := (List.chain'_cons.mp hchain).2
    by_cases hq : q = p
    · subst hq
      rw [show squeezeRuns (some q) (q :: rest) = squeezeRuns (some q) rest by
        simp [squeezeRuns]]
      exact ih q htail
    · have hne2 : ¬ ((some p : Option (Nat × Nat)) = some q) := by
        intro h
        exact hq (Option.some.inj h).symm
      rw [show squeezeRuns (some p) (q :: rest) = q :: squeezeRuns (some q) rest by
        simp [squeezeRuns, hne2]]
      have hqp : pairLtB q p = true := by
        rcases hrel with he | hlt
        · exact absurd he hq
        · exact hlt
      have hrec := ih q htail
      refine List.pairwise_cons.mpr ⟨?_, hrec⟩
      intro z hz
      rcases List.mem_cons.mp hz with rfl | hz
      · exact hqp
      · have hzq : pairLtB z q = true :=
          (List.pairwise_cons.mp hrec).1 z hz
        exact pairLtB_trans hzq hqp

/-- A non-increasing month sequence over exactly two distinct values has
exactly two runs. -/
theorem runCount_two (M : List (Nat × Nat)) (p1 p2 : Nat × Nat) (hne : p1 ≠ p2)
    (hsub : ∀ x ∈ M, x = p1 ∨ x = p2) (h1 : p1 ∈ M) (h2 : p2 ∈ M)
    (hchain : List.Chain' (fun a b => b = a ∨ pairLtB b a = true) M) :
    runCount none M = 2 := by
  cases M with
  | nil => cases h1
  | cons q M' =>
    rw [runCount_eq_squeeze]
    rw [show squeezeRuns none (q :: M') = q :: squeezeRuns (some q) M' by simp [squeezeRuns]]
    have hsorted := squeezeRuns_sorted M' q hchain
    have hmem1 : p1 ∈ q :: squeezeRuns (some q) M' := by
      rcases mem_squeezeRuns_of (q :: M') none h1 with hm | he
      · rw [show squeezeRuns none (q :: M') = q :: squeezeRuns (some q) M' by
          simp [squeezeRuns]] at hm
        exact hm
      · exact Option.noConfusion he
    have hmem2 : p2 ∈ q :: squeezeRuns (some q) M' := by
      rcases mem_squeezeRuns_of (q :: M') none h2 with hm | he
      · rw [show squeezeRuns none (q :: M') = q :: squeezeRuns (some q) M' by
          simp [squeezeRuns]] at hm
        exact hm
      · exact Option.noConfusion he
    have hsubS : ∀ x ∈ q :: squeezeRuns (some q) M', x = p1 ∨ x = p2 := by
      intro x hx
      rcases List.mem_cons.mp hx with rfl | hx
      · exact hsub x (List.mem_cons_self _ _)
      · exact hsub x (List.mem_cons_of_mem _ (squeezeRuns_subset M' (some q) hx))
    cases hS : squeezeRuns (some q) M' with
    | nil =>
      exfalso
      rw [hS] at hmem1 hmem2
      have e1 : p1 = q := by simpa using hmem1
      have e2 : p2 = q := by simpa using hmem2
      exact hne (e1.trans e2.symm)
    | cons s1 S' =>
      cases S' with
      | nil => rfl
      | cons s2 S'' =>
        exfalso
        rw [hS] at hsorted hsubS
        have hs1q : pairLtB s1 q = true :=
          (List.pairwise_cons.mp hsorted).1 s1 (by simp)
        have hs2q : pairLtB s2 q = true :=
          (List.pairwise_cons.mp hsorted).1 s2 (by simp)
        have hs2s1 : pairLtB s2 s1 = true :=
          (List.pairwise_cons.mp (List.pairwise_cons.mp hsorted).2).1 s2 (by simp)
        have hne_qs1 : q ≠ s1 := by
          intro he
          rw [he] at hs1q
          rw [pairLtB_irrefl] at hs1q
          exact Bool.noConfusion hs1q
        have hne_s1s2 : s1 ≠ s2 := by
          intro he
          rw [he] at hs2s1
          rw [pairLtB_irrefl] at hs2s1
          exact Bool.noConfusion hs2s1
        have hne_qs2 : q ≠ s2 := by
          intro he
          rw [he] at hs2q
          rw [pairLtB_irrefl] at hs2q
          exact Bool.noConfusion hs2q
        have hq' := hsubS q (by simp)
        have hs1' := hsubS s1 (by simp)
        have hs2' := hsubS s2 (by simp)
        rcases hq' with rfl | rfl <;> rcases hs1' with h | h <;> rcases hs2' with h' | h' <;>
          first
          | exact hne_qs1 h.symm
          | exact hne_qs2 h'.symm
          | exact hne_s1s2 (h.trans h'.symm)

/-- A valid month and day fit in the two-digit width. -/
theorem validYMD_bounds {y m d : Nat} (h : validYMD y m d) :
    y ≤ 9999 ∧ m ≤ 99 ∧ d ≤ 99 := by
  obtain ⟨_, hy2, _, hm2, _, hd2⟩ := h
  have := daysInMonth_le y m
  refine ⟨hy2, by omega, by omega⟩

/-- C2 (amended): on a nonempty entry mapping with duplicate-free
zero-padded valid keys spanning exactly two distinct (year, month) pairs,
the generation loop succeeds and its item list has exactly two month
headers, every card lies under its own month's header, the headers are in
descending (year, month) order, and the cards are in strictly descending
calendar-date order. -/
theorem C2_two_months (entries : List (Str × Str)) (p1 p2 : Nat × Nat)
    (hne : entries ≠ [])
    (hvalid : ∀ kv ∈ entries, paddedKey kv.1)
    (hnodup : (dictKeys entries).Nodup)
    (hp : p1 ≠ p2)
    (hspan : ∀ kv ∈ entries, monthKeyOf kv.1 = some p1 ∨ monthKeyOf kv.1 = some p2)
    (hw1 : ∃ kv ∈ entries, monthKeyOf kv.1 = some p1)
    (hw2 : ∃ kv ∈ entries, monthKeyOf kv.1 = some p2) :
    ∃ items, itemsOf entries (sortRevStr (dictKeys entries)) none = some items ∧
      generate_entries_html entries = some (joinSep ['\n'] (items.flatMap itemLines)) ∧
      headerCount items = 2 ∧ wfItems none none items = true := by
  have hpermm := sortRevStr_perm (dictKeys entries)
  have hmemk : ∀ k ∈ sortRevStr (dictKeys entries), paddedKey k := by
    intro k hk
    have hk2 : k ∈ dictKeys entries := hpermm.mem_iff.mp hk
    obtain ⟨kv, hkv, rfl⟩ := List.mem_map.mp hk2
    exact hvalid kv hkv
  have hv : ∀ k ∈ sortRevStr (dictKeys entries), ∃ t, pyStrptimeYmd k = some t := by
    intro k hk
    obtain ⟨y, m, d, hval, rfl⟩ := hmemk k hk
    exact ⟨(y, m, d), pyStrptimeYmd_padDate y m d hval⟩
  have hstrict := sortRevStr_strict (dictKeys entries) hnodup
  have hpairDate : (sortRevStr (dictKeys entries)).Pairwise
      (fun a b => ∀ ta tb, pyStrptimeYmd a = some ta → pyStrptimeYmd b = some tb →
        tripLtB tb ta = true) := by
    refine List.Pairwise.imp_of_mem ?_ hstrict
    intro a b ha hb hlt ta tb hta htb
    obtain ⟨ya, ma, da, hva, rfl⟩ := hmemk a ha
    obtain ⟨yb, mb, db, hvb, rfl⟩ := hmemk b hb
    have hpa := pyStrptimeYmd_padDate ya ma da hva
    have hpb := pyStrptimeYmd_padDate yb mb db hvb
    rw [hpa] at hta
    rw [hpb] at htb
    injection hta with hta
    injection htb with htb
    subst hta
    subst htb
    obtain ⟨hb1, hb2, hb3⟩ := validYMD_bounds hva
    obtain ⟨hc1, hc2, hc3⟩ := validYMD_bounds hvb
    rw [padDate_lt yb mb db ya ma da hc1 hb1 hc2 hb2 hc3 hb3] at hlt
    exact hlt
  obtain ⟨items, hit, hwf, hhc⟩ := itemsOf_wf entries (sortRevStr (dictKeys entries)) none none
    hv hpairDate.chain'
    (fun k t _ _ => ⟨fun tl htl => Option.noConfusion htl, fun mc hmc => Option.noConfusion hmc⟩)
  refine ⟨items, hit, ?_, ?_, hwf⟩
  · cases entries with
    | nil => exact absurd rfl hne
    | cons e es => simp only [generate_entries_html, hit]
  · rw [hhc]
    refine runCount_two _ p1 p2 hp ?_ ?_ ?_ ?_
    · intro x hx
      obtain ⟨k, hks, hfk⟩ := List.mem_filterMap.mp hx
      have hk2 : k ∈ dictKeys entries := hpermm.mem_iff.mp hks
      obtain ⟨kv, hkv, rfl⟩ := List.mem_map.mp hk2
      rcases hspan kv hkv with hs | hs
      · rw [hs] at hfk
        exact Or.inl (Option.some.inj hfk).symm
      · rw [hs] at hfk
        exact Or.inr (Option.some.inj hfk).symm
    · obtain ⟨kv, hkv, hmk⟩ := hw1
      refine List.mem_filterMap.mpr ⟨kv.1, ?_, hmk⟩
      exact hpermm.mem_iff.mpr (List.mem_map.mpr ⟨kv, hkv, rfl⟩)
    · obtain ⟨kv, hkv, hmk⟩ := hw2
      refine List.mem_filterMap.mpr ⟨kv.1, ?_, hmk⟩
      exact hpermm.mem_iff.mpr (List.mem_map.mpr ⟨kv, hkv, rfl⟩)
    · refine List.Pairwise.chain' ?_
      refine List.pairwise_filterMap.mpr ?_
      refine List.Pairwise.imp_of_mem ?_ hpairDate
      intro a b ha hb hrel x hx y hy
      obtain ⟨ta, hta⟩ := hv a ha
      obtain ⟨tb, htb⟩ := hv b hb
      have hxa : x = (ta.1, ta.2.1) := by
        rw [Option.mem_def, monthKeyOf, hta] at hx
        simpa using hx.symm
      have hyb : y = (tb.1, tb.2.1) := by
        rw [Option.mem_def, monthKeyOf, htb] at hy
        simpa using hy.symm
      subst hxa
      subst hyb
      exact (tripLtB_month (hrel ta tb hta htb)).imp id id

/-- Witness for the amended C2 at a concrete two-month entry mapping. -/
theorem C2_two_months_witness :
    ∃ items,
      itemsOf [(sL "2026-02-18", sL "a"), (sL "2026-01-05", sL "b")]
        (sortRevStr (dictKeys [(sL "2026-02-18", sL "a"), (sL "2026-01-05", sL "b")])) none = some items ∧
      generate_entries_html [(sL "2026-02-18", sL "a"), (sL "2026-01-05", sL "b")] =
        some (joinSep ['\n'] (items.flatMap itemLines)) ∧
      headerCount items = 2 ∧ wfItems none none items = true := by
  refine C2_two_months _ (2026, 2) (2026, 1) (by decide) ?_ (by decide) (by decide) ?_ ?_ ?_
  · intro kv hkv
    rcases List.mem_cons.mp hkv with he | hkv
    · exact ⟨2026, 2, 18, ⟨by decide, by decide, by decide, by decide, by decide, by decide⟩, by rw [he]; decide⟩
    · rcases List.mem_cons.mp hkv with he | hkv
      · exact ⟨2026, 1, 5, ⟨by decide, by decide, by decide, by decide, by decide, by decide⟩, by rw [he]; decide⟩
      · cases hkv
  · intro kv hkv
    rcases List.mem_cons.mp hkv with he | hkv
    · exact Or.inl (by rw [he]; decide)
    · rcases List.mem_cons.mp hkv with he | hkv
      · exact Or.inr (by rw [he]; decide)
      · cases hkv
  · exact ⟨(sL "2026-02-18", sL "a"), by simp, by decide⟩
  · exact ⟨(sL "2026-01-05", sL "b"), by simp, by decide⟩

/-! ## The card scan: termination bookkeeping and step equations -/

/-- A successful literal match consumes exactly the literal. -/
theorem lit_length : ∀ (p s r : Str), lit p s = some r → r.length + p.length = s.length := by
  intro p
  induction p with
  | nil =>
    intro s r h
    injection h with h
    rw [h]
    simp
  | cons pc ps ih =>
    intro s r h
    cases s with
    | nil => exact absurd h (by simp [lit])
    | cons c cs =>
      by_cases hc : c = pc
      · rw [show lit (pc :: ps) (c :: cs) = lit ps cs by simp [lit, hc]] at h
        have := ih cs r h
        simp only [List.length_cons]
        omega
      · exact absurd h (by simp [lit, hc])

/-- Consuming the literal itself succeeds. -/
theorem lit_self : ∀ (p s : Str), lit p (p ++ s) = some s := by
  intro p
  induction p with
  | nil => intro s; rfl
  | cons pc ps ih => intro s; simp [lit, ih]

/-- Whitespace skipping never lengthens the text. -/
theorem skipWs_length_le (s : Str) : (skipWs s).length ≤ s.length := by
  induction s with
  | nil => simp [skipWs]
  | cons c rest ih =>
    by_cases hc : isWs c
    · rw [show skipWs (c :: rest) = skipWs rest by simp [skipWs, List.dropWhile, hc]]
      simp only [List.length_cons]
      omega
    · rw [show skipWs (c :: rest) = c :: rest by simp [skipWs, List.dropWhile, hc]]

/-- The remainder after a lazy capture is no longer than the input, given
that the continuation never lengthens its input. -/
theorem lazyCap_rest_le {α : Type} (stop : Str) (k : Str → Option α) (f : α → Str)
    (hk : ∀ t a, k t = some a → (f a).length ≤ t.length) :
    ∀ (s : Str) (g : Str) (a : α), lazyCap stop k s = some (g, a) → (f a).length ≤ s.length := by
  intro s
  induction s with
  | nil =>
    intro g a h
    unfold lazyCap at h
    by_cases hp : stop.isPrefixOf ([] : Str) = true
    · rw [if_pos hp] at h
      cases hk2 : k (([] : Str).drop stop.length) with
      | none => rw [hk2] at h; exact absurd h (by simp)
      | some a' =>
        rw [hk2] at h
        injection h with h
        have h2 : a' = a := congrArg Prod.snd h
        have h3 := hk _ _ hk2
        rw [h2] at h3
        simpa using h3
    · rw [if_neg hp] at h
      exact absurd h (by simp)
  | cons c rest ih =>
    intro g a h
    unfold lazyCap at h
    by_cases hp : stop.isPrefixOf (c :: rest) = true
    · rw [if_pos hp] at h
      cases hk2 : k ((c :: rest).drop stop.length) with
      | none =>
        rw [hk2] at h
        cases hrec : lazyCap stop k rest with
        | none => rw [hrec] at h; exact absurd h (by simp)
        | some p =>
          rw [hrec] at h
          obtain ⟨g', a'⟩ := p
          injection h with h
          have h2 : a' = a := congrArg Prod.snd h
          have h3 := ih g' a' hrec
          rw [h2] at h3
          simp only [List.length_cons]
          omega
      | some a' =>
        rw [hk2] at h
        injection h with h
        have h2 : a' = a := congrArg Prod.snd h
        have h3 := hk _ _ hk2
        rw [h2] at h3
        have hd : ((c :: rest).drop stop.length).length ≤ (c :: rest).length := by
          rw [List.length_drop]
          omega
        omega
    · rw [if_neg hp] at h
      cases hrec : lazyCap stop k rest with
      | none => rw [hrec] at h; exact absurd h (by simp)
      | some p =>
        rw [hrec] at h
        obtain ⟨g', a'⟩ := p
        injection h with h
        have h2 : a' = a := congrArg Prod.snd h
        have h3 := ih g' a' hrec
        rw [h2] at h3
        simp only [List.length_cons]
        omega

/-- The closing tail of the card pattern never lengthens the text. -/
theorem cardEnd3_length {s r : Str} (h : cardEnd3 s = some r) : r.length ≤ s.length := by
  unfold cardEnd3 at h
  cases h1 : lit (sL "</a>") (skipWs s) with
  | none => rw [h1] at h; exact absurd h (by simp)
  | some s1 =>
    rw [h1] at h
    simp only [Option.some_bind] at h
    have e1 := lit_length _ _ _ h1
    have e2 := lit_length _ _ _ h
    have e3 := skipWs_length_le s
    have e4 := skipWs_length_le s1
    omega

/-- The description tail never lengthens the text. -/
theorem cardTail3_length {s : Str} {p : Str × Str} (h : cardTail3 s = some p) :
    p.2.length ≤ s.length := by
  unfold cardTail3 at h
  obtain ⟨g, a⟩ := p
  exact lazyCap_rest_le (sL "</p>") cardEnd3 id
    (fun t a' h' => cardEnd3_length h') s g a h

/-- The title tail never lengthens the text. -/
theorem cardTail2_length {s : Str} {p : Str × Str} (h : cardTail2 s = some p) :
    p.2.length ≤ s.length := by
  unfold cardTail2 at h
  cases h1 : lazyCap (sL "</div>")
      (fun s1 => (lit (sL "<p class=\"update-desc\">") (skipWs s1)).bind cardTail3) s with
  | none => rw [h1] at h; exact absurd h (by simp)
  | some q =>
    rw [h1] at h
    obtain ⟨g, a⟩ := q
    injection h with h
    rw [← h]
    refine lazyCap_rest_le _ _ (fun x => x.2) ?_ s g a h1
    intro t a' h'
    show a'.2.length ≤ t.length
    cases h2 : lit (sL "<p class=\"update-desc\">") (skipWs t) with
    | none => rw [h2] at h'; exact absurd h' (by simp)
    | some t1 =>
      rw [h2] at h'
      simp only [Option.some_bind] at h'
      have e1 := lit_length _ _ _ h2
      have e2 := skipWs_length_le t
      have e3 := cardTail3_length h'
      omega

/-- The date tail never lengthens the text. -/
theorem cardTail1_length {s : Str} {p : Str × Str} (h : cardTail1 s = some p) :
    p.2.length ≤ s.length := by
  unfold cardTail1 at h
  cases h1 : lazyCap (sL "</div>")
      (fun s1 => (lit (sL "<div class=\"update-title\">") (skipWs s1)).bind cardTail2) s with
  | none => rw [h1] at h; exact absurd h (by simp)
  | some q =>
    rw [h1] at h
    obtain ⟨g, a⟩ := q
    injection h with h
    rw [← h]
    refine lazyCap_rest_le _ _ (fun x => x.2) ?_ s g a h1
    intro t a' h'
    show a'.2.length ≤ t.length
    cases h2 : lit (sL "<div class=\"update-title\">") (skipWs t) with
    | none => rw [h2] at h'; exact absurd h' (by simp)
    | some t1 =>
      rw [h2] at h'
      simp only [Option.some_bind] at h'
      have e1 := lit_length _ _ _ h2
      have e2 := skipWs_length_le t
      have e3 := cardTail2_length h'
      omega

/-- The date group consumes exactly ten characters. -/
theorem matchDateHref_length {s : Str} {p : Str × Str} (h : matchDateHref s = some p) :
    p.2.length + 10 = s.length := by
  unfold matchDateHref at h
  split at h
  · split at h
    · injection h with h
      subst h
      simp
    · exact absurd h (by simp)
  · exact absurd h (by simp)

/-- A card match consumes at least one character. -/
theorem matchCardAt_length {s : Str} {t : Str × Str × Str} (h : matchCardAt s = some t) :
    t.2.2.length < s.length := by
  unfold matchCardAt at h
  cases h1 : lit cardLit s with
  | none => rw [h1] at h; exact absurd h (by simp)
  | some s1 =>
    rw [h1] at h
    simp only [Option.some_bind] at h
    cases h2 : lit (sL "<a href=\"") (skipWs s1) with
    | none => rw [h2] at h; exact absurd h (by simp)
    | some s2 =>
      rw [h2] at h
      simp only [Option.some_bind] at h
      cases h3 : matchDateHref s2 with
      | none => rw [h3] at h; exact absurd h (by simp)
      | some p =>
        rw [h3] at h
        simp only [Option.some_bind] at h
        cases h4 : lit (sL ".html\">") p.2 with
        | none => rw [h4] at h; exact absurd h (by simp)
        | some s3 =>
          rw [h4] at h
          simp only [Option.some_bind] at h
          cases h5 : lit (sL "<div class=\"update-date\">") (skipWs s3) with
          | none => rw [h5] at h; exact absurd h (by simp)
          | some s4 =>
            rw [h5] at h
            simp only [Option.some_bind] at h
            cases h6 : cardTail1 s4 with
            | none => rw [h6] at h; exact absurd h (by simp)
            | some q =>
              rw [h6] at h
              injection h with h
              subst h
              have e1 := lit_length _ _ _ h1
              have e2 := lit_length _ _ _ h2
              have e3 := matchDateHref_length h3
              have e4 := lit_length _ _ _ h4
              have e5 := lit_length _ _ _ h5
              have e6 := cardTail1_length h6
              have e7 := skipWs_length_le s1
              have e8 := skipWs_length_le s3
              have e9 : 0 < cardLit.length := by decide
              simp only []
              omega

/-- Fuel beyond the text length does not change the scan. -/
theorem scanCardsF_stable : ∀ (f : Nat) (s : Str), s.length ≤ f →
    scanCardsF f s = scanCardsF s.length s := by
  intro f
  induction f using Nat.strong_induction_on with
  | _ f ih =>
    intro s hs
    cases f with
    | zero =>
      cases s with
      | nil => rfl
      | cons c rest => simp at hs
    | succ f' =>
      cases s with
      | nil => rfl
      | cons c rest =>
        simp only [List.length_cons] at hs
        show scanCardsF (f' + 1) (c :: rest) = scanCardsF (rest.length + 1) (c :: rest)
        cases hm : matchCardAt (c :: rest) with
        | none =>
          rw [show scanCardsF (f' + 1) (c :: rest) = scanCardsF f' rest by
            simp [scanCardsF, hm]]
          rw [show scanCardsF (rest.length + 1) (c :: rest) = scanCardsF rest.length rest by
            simp [scanCardsF, hm]]
          rw [ih f' (by omega) rest (by omega)]
        | some t =>
          have hlen := matchCardAt_length hm
          simp only [List.length_cons] at hlen
          rw [show scanCardsF (f' + 1) (c :: rest) =
              (t.1, pyStrip t.2.1) :: scanCardsF f' t.2.2 by simp [scanCardsF, hm]]
          rw [show scanCardsF (rest.length + 1) (c :: rest) =
              (t.1, pyStrip t.2.1) :: scanCardsF rest.length t.2.2 by simp [scanCardsF, hm]]
          rw [ih f' (by omega) t.2.2 (by omega), ih rest.length (by omega) t.2.2 (by omega)]

/-- The scan of the empty text. -/
theorem scanCards_nil : scanCards [] = [] := rfl

/-- The scan steps over a position with no match. -/
theorem scanCards_cons_none {c : Char} {rest : Str} (h : matchCardAt (c :: rest) = none) :
    scanCards (c :: rest) = scanCards rest := by
  show scanCardsF (rest.length + 1) (c :: rest) = scanCardsF rest.length rest
  simp [scanCardsF, h]

/-- The scan emits a matched card and resumes after it. -/
theorem scanCards_match {s : Str} {t : Str × Str × Str} (h : matchCardAt s = some t) :
    scanCards s = (t.1, pyStrip t.2.1) :: scanCards t.2.2 := by
  cases s with
  | nil =>
    rw [show matchCardAt ([] : Str) = none from rfl] at h
    exact Option.noConfusion h
  | cons c rest =>
    have hlen := matchCardAt_length h
    simp only [List.length_cons] at hlen
    show scanCardsF (rest.length + 1) (c :: rest) = _
    rw [show scanCardsF (rest.length + 1) (c :: rest) =
        (t.1, pyStrip t.2.1) :: scanCardsF rest.length t.2.2 by simp [scanCardsF, h]]
    rw [scanCardsF_stable rest.length t.2.2 (by omega)]
    rfl

/-! ## Positions at which no card can match -/

/-- No card match starts at a character other than `<`. -/
theorem matchCardAt_ne_lt {c : Char} (h : ¬ c = '<') (s : Str) :
    matchCardAt (c :: s) = none := by
  unfold matchCardAt
  rw [show cardLit = '<' :: sL "div class=\"update-card\">" from rfl]
  rw [show lit ('<' :: sL "div class=\"update-card\">") (c :: s) = none by simp [lit, h]]
  rfl

/-- No card match starts at `<` followed by anything but `d`. -/
theorem matchCardAt_lt_ne_d {c : Char} (h : ¬ c = 'd') (s : Str) :
    matchCardAt ('<' :: c :: s) = none := by
  unfold matchCardAt
  rw [show cardLit = '<' :: 'd' :: sL "iv class=\"update-card\">" from rfl]
  rw [show lit ('<' :: 'd' :: sL "iv class=\"update-card\">") ('<' :: c :: s) = none by
    simp [lit, h]]
  rfl

/-- Equation: pair-freeness past a character other than `<`. -/
theorem pairFree_cons_ne {c2 c : Char} (h : ¬ c = '<') (rest : Str) :
    pairFree c2 (c :: rest) = pairFree c2 rest := by
  simp [pairFree, h]

/-- Equation: a trailing `<` is not pair-free. -/
theorem pairFree_lt_nil (c2 : Char) : pairFree c2 ['<'] = false := by
  simp [pairFree]

/-- Equation: pair-freeness at a `<` checks the next character. -/
theorem pairFree_lt_cons (c2 d : Char) (rs : Str) :
    pairFree c2 ('<' :: d :: rs) = ((d ≠ c2 : Bool) && pairFree c2 (d :: rs)) := by
  simp [pairFree]

/-- The tail of a pair-free text is pair-free. -/
theorem pairFree_tail {c2 c : Char} {rest : Str} (h : pairFree c2 (c :: rest) = true) :
    pairFree c2 rest = true := by
  by_cases hc : c = '<'
  · subst hc
    cases rest with
    | nil => rw [pairFree_lt_nil] at h; exact Bool.noConfusion h
    | cons d rs =>
      rw [pairFree_lt_cons, Bool.and_eq_true] at h
      exact h.2
  · rw [pairFree_cons_ne hc] at h
    exact h

/-- Pair-freeness is preserved by concatenation. -/
theorem pairFree_append {c2 : Char} : ∀ {x y : Str}, pairFree c2 x = true →
    pairFree c2 y = true → pairFree c2 (x ++ y) = true := by
  intro x
  induction x with
  | nil => intro y _ hy; exact hy
  | cons c x' ih =>
    intro y hx hy
    by_cases hc : c = '<'
    · subst hc
      cases x' with
      | nil => rw [pairFree_lt_nil] at hx; exact Bool.noConfusion hx
      | cons d xs =>
        rw [pairFree_lt_cons, Bool.and_eq_true] at hx
        obtain ⟨hd, hrest⟩ := hx
        have hih := ih hrest hy
        rw [show (('<' :: d :: xs) ++ y : Str) = '<' :: d :: (xs ++ y) by simp]
        rw [pairFree_lt_cons, Bool.and_eq_true]
        exact ⟨hd, by simpa using hih⟩
    · rw [pairFree_cons_ne hc] at hx
      rw [show ((c :: x') ++ y : Str) = c :: (x' ++ y) by simp, pairFree_cons_ne hc]
      exact ih hx hy

/-- A text without `<` is pair-free. -/
theorem pairFree_of_no_lt {c2 : Char} : ∀ {s : Str}, (∀ c ∈ s, c ≠ '<') →
    pairFree c2 s = true := by
  intro s
  induction s with
  | nil => intro _; rfl
  | cons c rest ih =>
    intro h
    have hc : ¬ c = '<' := h c (List.mem_cons_self _ _)
    rw [pairFree_cons_ne hc]
    exact ih (fun d hd => h d (List.mem_cons_of_mem _ hd))

/-- In a `d`-pair-free segment no suffix starts a card match, whatever
follows the segment. -/
theorem suffixSafe_of_pairFree : ∀ (a : Str), pairFree 'd' a = true →
    ∀ (b : Str), b <:+ a → b ≠ [] → ∀ (r : Str), matchCardAt (b ++ r) = none := by
  intro a
  induction a with
  | nil =>
    intro _ b hb hne r
    exact absurd (List.suffix_nil.mp hb) hne
  | cons c a' ih =>
    intro h b hb hne r
    rcases List.suffix_cons_iff.mp hb with hb1 | hb2
    · subst hb1
      by_cases hc : c = '<'
      · subst hc
        cases a' with
        | nil => rw [pairFree_lt_nil] at h; exact Bool.noConfusion h
        | cons d as_ =>
          rw [pairFree_lt_cons, Bool.and_eq_true] at h
          obtain ⟨hd, _⟩ := h
          rw [show (('<' :: d :: as_) ++ r : Str) = '<' :: d :: (as_ ++ r) by simp]
          exact matchCardAt_lt_ne_d (by simpa using hd) _
      · rw [show ((c :: a') ++ r : Str) = c :: (a' ++ r) by simp]
        exact matchCardAt_ne_lt hc _
    · exact ih (pairFree_tail h) b hb2 hne r

/-- The scan passes over a `d`-pair-free segment without finding a card. -/
theorem scanCards_skip : ∀ (a : Str),
    (∀ b, b <:+ a → b ≠ [] → ∀ r, matchCardAt (b ++ r) = none) →
    ∀ (r : Str), scanCards (a ++ r) = scanCards r := by
  intro a
  induction a with
  | nil => intro _ r; rfl
  | cons c a' ih =>
    intro h r
    have h1 : matchCardAt ((c :: a') ++ r) = none :=
      h (c :: a') (List.suffix_refl _) (by simp) r
    rw [show ((c :: a') ++ r : Str) = c :: (a' ++ r) by simp] at h1 ⊢
    rw [scanCards_cons_none h1]
    refine ih (fun b hb hne r' => h b ?_ hne r') r
    exact hb.trans (List.suffix_cons c a')

/-- The scan passes over a `d`-pair-free segment. -/
theorem scanCards_skip_pf (a : Str) (h : pairFree 'd' a = true) (r : Str) :
    scanCards (a ++ r) = scanCards r :=
  scanCards_skip a (suffixSafe_of_pairFree a h) r

/-! ## Recovering a rendered card exactly -/

/-- A lazy capture that can stop at the current position with a succeeding
continuation does so. -/
theorem lazyCap_cons_hit {α : Type} (stop : Str) (k : Str → Option α) (c : Char)
    (rest : Str) (b : α) (hpre : stop.isPrefixOf (c :: rest) = true)
    (hk : k ((c :: rest).drop stop.length) = some b) :
    lazyCap stop k (c :: rest) = some ([], b) := by
  unfold lazyCap
  rw [if_pos hpre, hk]

/-- A lazy capture that cannot stop at the current position consumes the
character. -/
theorem lazyCap_cons_miss {α : Type} (stop : Str) (k : Str → Option α) (c : Char)
    (rest : Str) (hpre : ¬ stop.isPrefixOf (c :: rest) = true) :
    lazyCap stop k (c :: rest) =
      (match lazyCap stop k rest with
       | some (g, a) => some (c :: g, a)
       | none => none) := by
  have h0 : lazyCap stop k (c :: rest) =
      (match
        (if stop.isPrefixOf (c :: rest) then
          match k ((c :: rest).drop stop.length) with
          | some a => some (([] : Str), a)
          | none => none
        else none) with
       | some r => some r
       | none =>
         match lazyCap stop k rest with
         | some (g, a) => some (c :: g, a)
         | none => none) := rfl
  rw [h0, if_neg hpre]

/-- On a captured group without `<`, a lazy capture whose stop string
starts with `<` cuts exactly at the stop occurrence placed after the
group, provided the continuation succeeds there. -/
theorem lazyCap_clean {α : Type} (stop' : Str) (k : Str → Option α) :
    ∀ (a : Str), (∀ c ∈ a, c ≠ '<') → ∀ (z : Str) (b : α), k z = some b →
    lazyCap ('<' :: stop') k (a ++ (('<' :: stop') ++ z)) = some (a, b) := by
  intro a
  induction a with
  | nil =>
    intro _ z b hk
    rw [List.nil_append]
    rw [show (('<' :: stop') ++ z : Str) = '<' :: (stop' ++ z) by simp]
    refine lazyCap_cons_hit _ _ _ _ b ?_ ?_
    · exact List.isPrefixOf_iff_prefix.mpr ⟨z, by simp⟩
    · rw [show (('<' :: (stop' ++ z) : Str)).drop (('<' :: stop').length) = z by
        simp only [List.length_cons, List.drop_succ_cons]
        exact List.drop_left stop' z]
      exact hk
  | cons c a' ih =>
    intro hclean z b hk
    have hc : c ≠ '<' := hclean c (List.mem_cons_self _ _)
    rw [show ((c :: a') ++ (('<' :: stop') ++ z) : Str) =
      c :: (a' ++ (('<' :: stop') ++ z)) by simp]
    rw [lazyCap_cons_miss _ _ _ _ ?hmiss]
    case hmiss =>
      intro hcontra
      have := List.isPrefixOf_iff_prefix.mp hcontra
      rcases this with ⟨t, ht⟩
      have : '<' = c := by
        have := congrArg (fun l => l.head?) ht
        simpa using this
      exact hc this.symm
    rw [ih (fun d hd => hclean d (List.mem_cons_of_mem _ hd)) z b hk]

/-- The two-digit padding laid out as characters. -/
theorem pad2_eq (n : Nat) : pad2 n = [digitChar (n / 10), digitChar (n % 10)] := by
  simp [pad2, padN, Nat.div_one, Nat.mod_one, pow_zero, pow_one]

/-- The four-digit padding laid out as characters. -/
theorem pad4_eq (n : Nat) : pad4 n =
    [digitChar (n / 1000), digitChar (n % 1000 / 100), digitChar (n % 1000 % 100 / 10),
      digitChar (n % 1000 % 100 % 10)] := by
  simp only [pad4, padN, pow_zero, pow_one, Nat.div_one, Nat.mod_one]
  norm_num

/-- The padded date laid out as characters. -/
theorem padDate_chars (y m d : Nat) : padDate y m d =
    digitChar (y / 1000) :: digitChar (y % 1000 / 100) :: digitChar (y % 1000 % 100 / 10) ::
    digitChar (y % 1000 % 100 % 10) :: '-' :: digitChar (m / 10) :: digitChar (m % 10) ::
    '-' :: digitChar (d / 10) :: digitChar (d % 10) :: [] := by
  rw [padDate, pad4_eq, pad2_eq, pad2_eq]
  rfl

/-- The href date group accepts exactly a padded date. -/
theorem matchDateHref_padDate (y m d : Nat) (rest : Str) :
    matchDateHref (padDate y m d ++ rest) = some (padDate y m d, rest) := by
  rw [padDate_chars]
  rw [show ((digitChar (y / 1000) :: digitChar (y % 1000 / 100) ::
      digitChar (y % 1000 % 100 / 10) :: digitChar (y % 1000 % 100 % 10) :: '-' ::
      digitChar (m / 10) :: digitChar (m % 10) :: '-' :: digitChar (d / 10) ::
      digitChar (d % 10) :: [] : Str) ++ rest) =
      digitChar (y / 1000) :: digitChar (y % 1000 / 100) ::
      digitChar (y % 1000 % 100 / 10) :: digitChar (y % 1000 % 100 % 10) :: '-' ::
      digitChar (m / 10) :: digitChar (m % 10) :: '-' :: digitChar (d / 10) ::
      digitChar (d % 10) :: rest by simp]
  simp only [matchDateHref, isDigit_digitChar, Bool.and_self, if_pos]

/-- Digit characters are not `<`. -/
theorem digitChar_ne_lt (n : Nat) : digitChar n ≠ '<' := by
  unfold digitChar
  split <;> decide

/-- Month names contain no `<`. -/
theorem monthName_no_lt (m : Nat) : ∀ c ∈ monthName m, c ≠ '<' := by
  unfold monthName
  split <;> decide

/-- Weekday names contain no `<`. -/
theorem weekdayName_no_lt (n : Nat) : ∀ c ∈ weekdayName n, c ≠ '<' := by
  unfold weekdayName
  split <;> decide

/-- Decimal renderings contain no `<`. -/
theorem toDigitsF_no_lt : ∀ (f n : Nat), ∀ c ∈ toDigitsF f n, c ≠ '<' := by
  intro f
  induction f with
  | zero => intro n c hc; cases hc
  | succ f' ih =>
    intro n c hc
    by_cases hn : n < 10
    · rw [show toDigitsF (f' + 1) n = [digitChar n] by simp [toDigitsF, hn]] at hc
      rcases List.mem_singleton.mp hc with rfl
      exact digitChar_ne_lt n
    · rw [show toDigitsF (f' + 1) n = toDigitsF f' (n / 10) ++ [digitChar (n % 10)] by
        simp [toDigitsF, hn]] at hc
      rcases List.mem_append.mp hc with hc | hc
      · exact ih (n / 10) c hc
      · rcases List.mem_singleton.mp hc with rfl
        exact digitChar_ne_lt _

/-- The rendered date display contains no `<`. -/
theorem format_date_display_no_lt (y m d : Nat) : ∀ c ∈ format_date_display y m d, c ≠ '<' := by
  intro c hc
  unfold format_date_display at hc
  simp only [List.mem_append] at hc
  rcases hc with (((((hc | hc) | hc) | hc) | hc) | hc) | hc
  · exact monthName_no_lt m c hc
  · exact (by decide : ∀ x ∈ sL " ", x ≠ '<') c hc
  · exact toDigitsF_no_lt _ _ c hc
  · exact (by decide : ∀ x ∈ sL ", ", x ≠ '<') c hc
  · exact toDigitsF_no_lt _ _ c hc
  · exact (by decide : ∀ x ∈ sL " &middot; ", x ≠ '<') c hc
  · exact weekdayName_no_lt _ c hc

/-- Unfolding `cardTail2` on a successful inner lazy capture. -/
theorem cardTail2_of_lazyCap (s g : Str) (p : Str × Str)
    (h : lazyCap (sL "</div>")
      (fun s1 => (lit (sL "<p class=\"update-desc\">") (skipWs s1)).bind cardTail3) s =
      some (g, p)) : cardTail2 s = some p := by
  unfold cardTail2
  rw [h]

/-- Unfolding `cardTail1` on a successful inner lazy capture. -/
theorem cardTail1_of_lazyCap (s g : Str) (p : Str × Str)
    (h : lazyCap (sL "</div>")
      (fun s1 => (lit (sL "<div class=\"update-title\">") (skipWs s1)).bind cardTail2) s =
      some (g, p)) : cardTail1 s = some p := by
  unfold cardTail1
  rw [h]

/-- The description tail recovers a `<`-free description placed before the
closing markup. -/
theorem cardTail3_clean (desc r : Str) (hdesc : ∀ c ∈ desc, c ≠ '<') :
    cardTail3 (desc ++ (sL "</p>\n    </a>\n  </div>" ++ r)) = some (desc, r) := by
  have hk : cardEnd3 (sL "\n    </a>\n  </div>" ++ r) = some r := rfl
  exact lazyCap_clean (sL "/p>") cardEnd3 desc hdesc (sL "\n    </a>\n  </div>" ++ r) r hk

/-- The title-and-description tail recovers a `<`-free description from the
rendered card body. -/
theorem cardTail2_clean (desc r : Str) (hdesc : ∀ c ∈ desc, c ≠ '<') :
    cardTail2 (sL "Daily Market Update</div>\n      <p class=\"update-desc\">" ++
      (desc ++ (sL "</p>\n    </a>\n  </div>" ++ r))) = some (desc, r) := by
  have hk : (fun s1 => (lit (sL "<p class=\"update-desc\">") (skipWs s1)).bind cardTail3)
      (sL "\n      <p class=\"update-desc\">" ++ (desc ++ (sL "</p>\n    </a>\n  </div>" ++ r))) =
      some (desc, r) := by
    show (lit (sL "<p class=\"update-desc\">")
        (skipWs (sL "\n      <p class=\"update-desc\">" ++
          (desc ++ (sL "</p>\n    </a>\n  </div>" ++ r))))).bind cardTail3 = some (desc, r)
    rw [show skipWs (sL "\n      <p class=\"update-desc\">" ++
        (desc ++ (sL "</p>\n    </a>\n  </div>" ++ r))) =
        sL "<p class=\"update-desc\">" ++ (desc ++ (sL "</p>\n    </a>\n  </div>" ++ r)) from rfl]
    rw [show lit (sL "<p class=\"update-desc\">")
        (sL "<p class=\"update-desc\">" ++ (desc ++ (sL "</p>\n    </a>\n  </div>" ++ r))) =
        some (desc ++ (sL "</p>\n    </a>\n  </div>" ++ r)) from rfl]
    rw [Option.some_bind]
    exact cardTail3_clean desc r hdesc
  have hlz : lazyCap (sL "</div>")
      (fun s1 => (lit (sL "<p class=\"update-desc\">") (skipWs s1)).bind cardTail3)
      (sL "Daily Market Update</div>\n      <p class=\"update-desc\">" ++
        (desc ++ (sL "</p>\n    </a>\n  </div>" ++ r))) =
      some (sL "Daily Market Update", (desc, r)) :=
    lazyCap_clean (sL "/div>") _ (sL "Daily Market Update") (by decide)
      (sL "\n      <p class=\"update-desc\">" ++ (desc ++ (sL "</p>\n    </a>\n  </div>" ++ r)))
      (desc, r) hk
  exact cardTail2_of_lazyCap _ _ _ hlz

/-- The date-display tail recovers a `<`-free description from the rendered
card body. -/
theorem cardTail1_clean (y m d : Nat) (desc r : Str) (hdesc : ∀ c ∈ desc, c ≠ '<') :
    cardTail1 (format_date_display y m d ++
      (sL "</div>\n      <div class=\"update-title\">Daily Market Update</div>\n      <p class=\"update-desc\">" ++
        (desc ++ (sL "</p>\n    </a>\n  </div>" ++ r)))) = some (desc, r) := by
  have hk : (fun s1 => (lit (sL "<div class=\"update-title\">") (skipWs s1)).bind cardTail2)
      (sL "\n      <div class=\"update-title\">Daily Market Update</div>\n      <p class=\"update-desc\">" ++
        (desc ++ (sL "</p>\n    </a>\n  </div>" ++ r))) = some (desc, r) := by
    show (lit (sL "<div class=\"update-title\">")
        (skipWs (sL "\n      <div class=\"update-title\">Daily Market Update</div>\n      <p class=\"update-desc\">" ++
          (desc ++ (sL "</p>\n    </a>\n  </div>" ++ r))))).bind cardTail2 = some (desc, r)
    rw [show skipWs (sL "\n      <div class=\"update-title\">Daily Market Update</div>\n      <p class=\"update-desc\">" ++
        (desc ++ (sL "</p>\n    </a>\n  </div>" ++ r))) =
        sL "<div class=\"update-title\">Daily Market Update</div>\n      <p class=\"update-desc\">" ++
        (desc ++ (sL "</p>\n    </a>\n  </div>" ++ r)) from rfl]
    rw [show lit (sL "<div class=\"update-title\">")
        (sL "<div class=\"update-title\">Daily Market Update</div>\n      <p class=\"update-desc\">" ++
          (desc ++ (sL "</p>\n    </a>\n  </div>" ++ r))) =
        some (sL "Daily Market Update</div>\n      <p class=\"update-desc\">" ++
          (desc ++ (sL "</p>\n    </a>\n  </div>" ++ r))) from rfl]
    rw [Option.some_bind]
    exact cardTail2_clean desc r hdesc
  have hlz : lazyCap (sL "</div>")
      (fun s1 => (lit (sL "<div class=\"update-title\">") (skipWs s1)).bind cardTail2)
      (format_date_display y m d ++
        (sL "</div>\n      <div class=\"update-title\">Daily Market Update</div>\n      <p class=\"update-desc\">" ++
          (desc ++ (sL "</p>\n    </a>\n  </div>" ++ r)))) =
      some (format_date_display y m d, (desc, r)) :=
    lazyCap_clean (sL "/div>") _ (format_date_display y m d)
      (format_date_display_no_lt y m d)
      (sL "\n      <div class=\"update-title\">Daily Market Update</div>\n      <p class=\"update-desc\">" ++
        (desc ++ (sL "</p>\n    </a>\n  </div>" ++ r)))
      (desc, r) hk
  exact cardTail1_of_lazyCap _ _ _ hlz

/-- The anchored card matcher recovers exactly the date and description of
a rendered card body whose description contains no `<`. -/
theorem matchCardAt_card (y m d : Nat) (desc r : Str) (hdesc : ∀ c ∈ desc, c ≠ '<') :
    matchCardAt (cardBody (padDate y m d) y m d desc ++ r) =
      some (padDate y m d, desc, r) := by
  have hshape : cardBody (padDate y m d) y m d desc ++ r =
      sL "<div class=\"update-card\">\n    <a href=\"" ++ (padDate y m d ++
      (sL ".html\">\n      <div class=\"update-date\">" ++ (format_date_display y m d ++
      (sL "</div>\n      <div class=\"update-title\">Daily Market Update</div>\n      <p class=\"update-desc\">" ++
      (desc ++ (sL "</p>\n    </a>\n  </div>" ++ r)))))) := by
    simp only [cardBody, List.append_assoc]
  rw [hshape]
  have hrest2 := cardTail1_clean y m d desc r hdesc
  have f1 : ∀ Z : Str, lit cardLit (sL "<div class=\"update-card\">\n    <a href=\"" ++ Z) =
      some (sL "\n    <a href=\"" ++ Z) := fun Z => rfl
  have f2 : ∀ Z : Str, skipWs (sL "\n    <a href=\"" ++ Z) = sL "<a href=\"" ++ Z :=
    fun Z => rfl
  have f3 : ∀ Z : Str, lit (sL "<a href=\"") (sL "<a href=\"" ++ Z) = some Z := fun Z => rfl
  have f4 : ∀ Z : Str, lit (sL ".html\">") (sL ".html\">\n      <div class=\"update-date\">" ++ Z) =
      some (sL "\n      <div class=\"update-date\">" ++ Z) := fun Z => rfl
  have f5 : ∀ Z : Str, skipWs (sL "\n      <div class=\"update-date\">" ++ Z) =
      sL "<div class=\"update-date\">" ++ Z := fun Z => rfl
  have f6 : ∀ Z : Str, lit (sL "<div class=\"update-date\">") (sL "<div class=\"update-date\">" ++ Z) =
      some Z := fun Z => rfl
  simp only [matchCardAt, f1, Option.some_bind, f2, f3, matchDateHref_padDate, f4, f5, f6,
    hrest2]
  rfl

/-- The rendered month header contains no `<`. -/
theorem format_month_header_no_lt (y m : Nat) : ∀ c ∈ format_month_header y m, c ≠ '<' := by
  intro c hc
  unfold format_month_header at hc
  simp only [List.mem_append] at hc
  rcases hc with (hc | hc) | hc
  · exact monthName_no_lt m c hc
  · exact (by decide : ∀ x ∈ sL " ", x ≠ '<') c hc
  · exact toDigitsF_no_lt _ _ c hc

/-- A padded date contains no `<`. -/
theorem padDate_no_lt (y m d : Nat) : ∀ c ∈ padDate y m d, c ≠ '<' := by
  rw [padDate_chars]
  intro c hc
  simp only [List.mem_cons, List.not_mem_nil, or_false] at hc
  rcases hc with rfl | rfl | rfl | rfl | rfl | rfl | rfl | rfl | rfl | rfl
  all_goals first | exact digitChar_ne_lt _ | decide

/-! ## Scanning a generated region -/

/-- The card scan recovers exactly the cards of a clean item list, then
continues into whatever follows the region. -/
theorem scanCards_seg : ∀ (items : List Item), (∀ it ∈ items, itemClean it) →
    ∀ (tail : Str), scanCards (seg items ++ tail) = cardsOf items ++ scanCards tail := by
  intro items
  induction items with
  | nil => intro _ tail; simp [seg, cardsOf]
  | cons it rest ih =>
    intro hcl tail
    have hit := hcl it (List.mem_cons_self _ _)
    have hrest := fun x hx => hcl x (List.mem_cons_of_mem _ hx)
    cases it with
    | header y m =>
      have hpfH : pairFree 'd' (sL "\n  <h4 style=\"margin-top: 30px;\">" ++
          format_month_header y m ++ sL "</h4>") = true :=
        pairFree_append (pairFree_append (by decide)
          (pairFree_of_no_lt (format_month_header_no_lt y m))) (by decide)
      cases rest with
      | nil =>
        have hseg : seg [Item.header y m] = sL "\n  <h4 style=\"margin-top: 30px;\">" ++
            format_month_header y m ++ sL "</h4>" := rfl
        rw [hseg, scanCards_skip_pf _ hpfH tail]
        simp [cardsOf]
      | cons it2 rest2 =>
        have hseg : seg (Item.header y m :: it2 :: rest2) =
            (sL "\n  <h4 style=\"margin-top: 30px;\">" ++ format_month_header y m ++
              sL "</h4>") ++ '\n' :: seg (it2 :: rest2) := rfl
        rw [hseg]
        have hre : ((sL "\n  <h4 style=\"margin-top: 30px;\">" ++ format_month_header y m ++
            sL "</h4>") ++ '\n' :: seg (it2 :: rest2)) ++ tail =
            ((sL "\n  <h4 style=\"margin-top: 30px;\">" ++ format_month_header y m ++
              sL "</h4>") ++ ['\n']) ++ (seg (it2 :: rest2) ++ tail) := by
          simp
        rw [hre, scanCards_skip_pf _ (pairFree_append hpfH (by decide)) _, ih hrest tail]
        simp [cardsOf]
    | card dstr y m d desc =>
      obtain ⟨hv, hds, hnl, hstr⟩ := hit
      subst hds
      cases rest with
      | nil =>
        have hseg : seg [Item.card (padDate y m d) y m d desc] =
            '\n' :: (sL "  " ++ cardBody (padDate y m d) y m d desc) := rfl
        rw [hseg]
        have hre : ('\n' :: (sL "  " ++ cardBody (padDate y m d) y m d desc)) ++ tail =
            sL "\n  " ++ (cardBody (padDate y m d) y m d desc ++ tail) := by
          simp only [List.cons_append, List.append_assoc]
          rfl
        rw [hre, scanCards_skip_pf (sL "\n  ") (by decide) _,
          scanCards_match (matchCardAt_card y m d desc tail hnl)]
        simp [cardsOf, hstr]
      | cons it2 rest2 =>
        have hseg : seg (Item.card (padDate y m d) y m d desc :: it2 :: rest2) =
            ('\n' :: (sL "  " ++ cardBody (padDate y m d) y m d desc)) ++
              '\n' :: seg (it2 :: rest2) := rfl
        rw [hseg]
        have hre : (('\n' :: (sL "  " ++ cardBody (padDate y m d) y m d desc)) ++
            '\n' :: seg (it2 :: rest2)) ++ tail =
            sL "\n  " ++ (cardBody (padDate y m d) y m d desc ++
              ('\n' :: (seg (it2 :: rest2) ++ tail))) := by
          simp only [List.cons_append, List.append_assoc]
          rfl
        rw [hre, scanCards_skip_pf (sL "\n  ") (by decide) _,
          scanCards_match (matchCardAt_card y m d desc _ hnl)]
        have h2 : scanCards ('\n' :: (seg (it2 :: rest2) ++ tail)) =
            scanCards (seg (it2 :: rest2) ++ tail) :=
          scanCards_cons_none (matchCardAt_ne_lt (by decide) _)
        simp only [h2, ih hrest tail]
        simp [cardsOf, hstr]

/-- Each item renders to at least one line. -/
theorem itemLines_ne_nil (it : Item) : itemLines it ≠ [] := by
  cases it <;> simp [itemLines]

/-- Joining a nonempty concatenation splits at the boundary. -/
theorem joinSep_append_ne (sep : Str) : ∀ (A B : List Str), A ≠ [] → B ≠ [] →
    joinSep sep (A ++ B) = joinSep sep A ++ sep ++ joinSep sep B := by
  intro A
  induction A with
  | nil => intro B h _; exact absurd rfl h
  | cons x A' ih =>
    intro B _ hB
    cases A' with
    | nil =>
      cases B with
      | nil => exact absurd rfl hB
      | cons b B' => simp [joinSep]
    | cons a' A'' =>
      have := ih B (by simp) hB
      cases hAB : (a' :: A'') ++ B with
      | nil => simp at hAB
      | cons z zs =>
        rw [show ((x :: a' :: A'') ++ B : List Str) = x :: ((a' :: A'') ++ B) by simp, hAB]
        rw [show joinSep sep (x :: z :: zs) = x ++ sep ++ joinSep sep (z :: zs) from rfl]
        rw [← hAB, this]
        rw [show joinSep sep (x :: a' :: A'') = x ++ sep ++ joinSep sep (a' :: A'') from rfl]
        simp [List.append_assoc]

/-- The `seg` rendering is the newline-join of the item lines. -/
theorem seg_eq : ∀ (items : List Item), seg items = joinSep ['\n'] (items.flatMap itemLines) := by
  intro items
  induction items with
  | nil => rfl
  | cons it rest ih =>
    cases rest with
    | nil => simp [seg, List.flatMap]
    | cons it2 rest2 =>
      have h1 : (it :: it2 :: rest2).flatMap itemLines =
          itemLines it ++ (it2 :: rest2).flatMap itemLines := by
        simp [List.flatMap_cons]
      have h2 : (it2 :: rest2).flatMap itemLines ≠ [] := by
        have := itemLines_ne_nil it2
        simp [List.flatMap_cons]
        intro hc
        exact absurd hc this
      rw [h1, joinSep_append_ne ['\n'] (itemLines it) _ (itemLines_ne_nil it) h2]
      rw [show seg (it :: it2 :: rest2) =
        joinSep ['\n'] (itemLines it) ++ '\n' :: seg (it2 :: rest2) from rfl]
      rw [ih]
      simp [List.append_assoc]

/-- A clean item's rendered line has no `<` followed by `!`. -/
theorem linePairFreeBang (it : Item) (h : itemClean it) :
    pairFree '!' (joinSep ['\n'] (itemLines it)) = true := by
  cases it with
  | header y m =>
    exact pairFree_append (pairFree_append (by decide)
      (pairFree_of_no_lt (format_month_header_no_lt y m))) (by decide)
  | card dstr y m d desc =>
    obtain ⟨hv, hds, hnl, _⟩ := h
    subst hds
    show pairFree '!' ('\n' :: (sL "  " ++ cardBody (padDate y m d) y m d desc)) = true
    rw [pairFree_cons_ne (by decide)]
    refine pairFree_append (by decide) ?_
    unfold cardBody
    refine pairFree_append (pairFree_append (pairFree_append (pairFree_append
      (pairFree_append (pairFree_append (by decide)
        (pairFree_of_no_lt (padDate_no_lt y m d))) (by decide))
        (pairFree_of_no_lt (format_date_display_no_lt y m d))) (by decide))
        (pairFree_of_no_lt hnl)) (by decide)

/-! ## Dict facts for the round trip -/

/-- Members of an insertion result. -/
theorem mem_dictInsert {p : Str × Str} : ∀ {d : List (Str × Str)} {k v : Str},
    p ∈ dictInsert d k v → p = (k, v) ∨ p ∈ d := by
  intro d
  induction d with
  | nil =>
    intro k v h
    simp [dictInsert] at h
    exact Or.inl h
  | cons q rest ih =>
    intro k v h
    by_cases hq : q.1 = k
    · rw [show dictInsert (q :: rest) k v = (k, v) :: rest by simp [dictInsert, hq]] at h
      rcases List.mem_cons.mp h with h | h
      · exact Or.inl h
      · exact Or.inr (List.mem_cons_of_mem _ h)
    · rw [show dictInsert (q :: rest) k v = q :: dictInsert rest k v by
        simp [dictInsert, hq]] at h
      rcases List.mem_cons.mp h with h | h
      · exact Or.inr (h ▸ List.mem_cons_self _ _)
      · rcases ih h with h | h
        · exact Or.inl h
        · exact Or.inr (List.mem_cons_of_mem _ h)

/-- A successful lookup exhibits a member. -/
theorem dictLookup_mem : ∀ {d : List (Str × Str)} {k v : Str},
    dictLookup d k = some v → (k, v) ∈ d := by
  intro d
  induction d with
  | nil => intro k v h; exact Option.noConfusion h
  | cons q rest ih =>
    intro k v h
    by_cases hq : q.1 = k
    · rw [show dictLookup (q :: rest) k = some q.2 by simp [dictLookup, hq]] at h
      injection h with h
      subst h
      have : (k, q.2) = q := by
        cases q
        simp at hq ⊢
        exact hq.symm
      exact this ▸ List.mem_cons_self _ _
    · rw [show dictLookup (q :: rest) k = dictLookup rest k by simp [dictLookup, hq]] at h
      exact List.mem_cons_of_mem _ (ih h)

/-- Lookup misses exactly the absent keys. -/
theorem dictLookup_none_of_not_mem : ∀ {d : List (Str × Str)} {k : Str},
    k ∉ dictKeys d → dictLookup d k = none := by
  intro d
  induction d with
  | nil => intro k _; rfl
  | cons q rest ih =>
    intro k h
    have h1 : ¬ q.1 = k := by
      intro hc
      exact h (by simp [dictKeys, hc])
    have h2 : k ∉ dictKeys rest := by
      intro hc
      exact h (by simp [dictKeys] at hc ⊢; exact Or.inr hc)
    simp [dictLookup, h1, ih h2]

/-- Lookup hits every present key. -/
theorem dictLookup_isSome_of_mem : ∀ {d : List (Str × Str)} {k : Str},
    k ∈ dictKeys d → ∃ v, dictLookup d k = some v := by
  intro d
  induction d with
  | nil => intro k h; simp [dictKeys] at h
  | cons q rest ih =>
    intro k h
    by_cases hq : q.1 = k
    · exact ⟨q.2, by simp [dictLookup, hq]⟩
    · have : k ∈ dictKeys rest := by
        rcases List.mem_cons.mp h with h | h
        · exact absurd h.symm hq
        · exact h
      obtain ⟨v, hv⟩ := ih this
      exact ⟨v, by simp [dictLookup, hq, hv]⟩

/-- Inserting a fresh key appends the binding. -/
theorem dictInsert_append : ∀ {d : List (Str × Str)} {k : Str} (v : Str),
    k ∉ dictKeys d → dictInsert d k v = d ++ [(k, v)] := by
  intro d
  induction d with
  | nil => intro k v _; rfl
  | cons q rest ih =>
    intro k v h
    have h1 : ¬ q.1 = k := by
      intro hc
      exact h (by simp [dictKeys, hc])
    have h2 : k ∉ dictKeys rest := by
      intro hc
      exact h (by simp [dictKeys] at hc ⊢; exact Or.inr hc)
    simp [dictInsert, h1, ih v h2]

/-- An insertion result is never empty. -/
theorem dictInsert_ne_nil (d : List (Str × Str)) (k v : Str) : dictInsert d k v ≠ [] := by
  cases d with
  | nil => simp [dictInsert]
  | cons q rest =>
    by_cases hq : q.1 = k <;> simp [dictInsert, hq]

/-- Folding insertions of bindings with fresh, duplicate-free keys appends
them unchanged. -/
theorem foldl_dictInsert_eq : ∀ (l acc : List (Str × Str)),
    (dictKeys (acc ++ l)).Nodup →
    l.foldl (fun d p => dictInsert d p.1 p.2) acc = acc ++ l := by
  intro l
  induction l with
  | nil => intro acc _; simp
  | cons p rest ih =>
    intro acc hnd
    have hkeys : dictKeys (acc ++ p :: rest) = dictKeys acc ++ p.1 :: dictKeys rest := by
      simp [dictKeys]
    rw [hkeys] at hnd
    have hfresh : p.1 ∉ dictKeys acc := by
      rcases List.nodup_append.mp hnd with ⟨_, _, hdisj⟩
      intro hc
      exact hdisj hc (List.mem_cons_self _ _)
    have hstep : dictInsert acc p.1 p.2 = acc ++ [p] := by
      rw [dictInsert_append p.2 hfresh]
    rw [List.foldl_cons, hstep]
    have hres := ih (acc ++ [p]) (by
      rw [show (acc ++ [p]) ++ rest = acc ++ p :: rest by simp]
      rw [hkeys]
      exact hnd)
    rw [hres]
    simp

/-- Folding insertions always yields duplicate-free keys. -/
theorem foldl_dictInsert_nodup : ∀ (l acc : List (Str × Str)),
    (dictKeys acc).Nodup →
    (dictKeys (l.foldl (fun d p => dictInsert d p.1 p.2) acc)).Nodup := by
  intro l
  induction l with
  | nil => intro acc h; exact h
  | cons p rest ih =>
    intro acc h
    rw [List.foldl_cons]
    exact ih _ (dictInsert_nodup acc p.1 p.2 h)

/-- The keys recovered from any document are duplicate-free. -/
theorem parse_keys_nodup (html : Str) :
    (dictKeys (parse_existing_entries html)).Nodup := by
  unfold parse_existing_entries
  cases hs : findSub ENTRY_START html with
  | none => simp [dictKeys]
  | some si =>
    cases he : findSub ENTRY_END html with
    | none => simp [dictKeys]
    | some ei =>
      dsimp only
      exact foldl_dictInsert_nodup _ [] (by simp [dictKeys])

/-- Lookup in a key-indexed map of a function. -/
theorem dictLookup_map_self : ∀ (ks : List Str) (g : Str → Str) (k : Str),
    dictLookup (ks.map (fun k' => (k', g k'))) k =
      if k ∈ ks then some (g k) else none := by
  intro ks
  induction ks with
  | nil => intro g k; simp [dictLookup]
  | cons a rest ih =>
    intro g k
    by_cases ha : a = k
    · subst ha
      simp [dictLookup]
    · rw [show (a :: rest).map (fun k' => (k', g k')) =
        (a, g a) :: rest.map (fun k' => (k', g k')) by simp]
      rw [show dictLookup ((a, g a) :: rest.map (fun k' => (k', g k'))) k =
        dictLookup (rest.map (fun k' => (k', g k'))) k by simp [dictLookup, ha]]
      rw [ih g k]
      by_cases hm : k ∈ rest
      · rw [if_pos hm, if_pos (List.mem_cons_of_mem _ hm)]
      · rw [if_neg hm, if_neg ?_]
        intro hc
        rcases List.mem_cons.mp hc with hc | hc
        · exact ha hc.symm
        · exact hm hc

/-- Keys of a key-indexed map of a function. -/
theorem dictKeys_map_self (ks : List Str) (g : Str → Str) :
    dictKeys (ks.map (fun k' => (k', g k'))) = ks := by
  unfold dictKeys
  rw [List.map_map]
  exact List.map_id ks

/-- The fixed fallback description is clean. -/
theorem fallbackDesc_clean : cleanDesc fallbackDesc := ⟨by decide, rfl⟩

/-- On padded keys the generation loop succeeds, its items are clean, and
its cards list the keys in order with their effective descriptions. -/
theorem itemsOf_clean_cards (entries : List (Str × Str))
    (hent : ∀ p ∈ entries, cleanDesc p.2) :
    ∀ (ks : List Str), (∀ k ∈ ks, paddedKey k) → ∀ (cur : Option (Nat × Nat)),
    ∃ items, itemsOf entries ks cur = some items ∧ (∀ it ∈ items, itemClean it) ∧
      cardsOf items = ks.map (fun k => (k, (dictLookup entries k).getD fallbackDesc)) := by
  intro ks
  induction ks with
  | nil => intro _ cur; exact ⟨[], rfl, by simp, rfl⟩
  | cons k rest ih =>
    intro hks cur
    obtain ⟨y, m, d, hv, hk⟩ := hks k (List.mem_cons_self _ _)
    have hp : pyStrptimeYmd k = some (y, m, d) := by
      rw [hk]; exact pyStrptimeYmd_padDate y m d hv
    obtain ⟨items, hit, hcls, hcards⟩ :=
      ih (fun k' h' => hks k' (List.mem_cons_of_mem _ h')) (some (y, m))
    have hdc : cleanDesc ((dictLookup entries k).getD fallbackDesc) := by
      cases hl : dictLookup entries k with
      | none => simpa using fallbackDesc_clean
      | some v =>
        have := hent (k, v) (dictLookup_mem hl)
        simpa using this
    have hcard : itemClean (Item.card k y m d ((dictLookup entries k).getD fallbackDesc)) :=
      ⟨hv, hk, hdc.1, hdc.2⟩
    by_cases hcur : cur = some (y, m)
    · refine ⟨Item.card k y m d ((dictLookup entries k).getD fallbackDesc) :: items,
        ?_, ?_, ?_⟩
      · simp [itemsOf, hp, hit, hcur]
      · intro it hmem
        rcases List.mem_cons.mp hmem with rfl | hmem
        · exact hcard
        · exact hcls it hmem
      · simp [cardsOf, hcards]
    · refine ⟨Item.header y m ::
        Item.card k y m d ((dictLookup entries k).getD fallbackDesc) :: items, ?_, ?_, ?_⟩
      · simp [itemsOf, hp, hit, hcur]
      · intro it hmem
        rcases List.mem_cons.mp hmem with rfl | hmem
        · trivial
        · rcases List.mem_cons.mp hmem with rfl | hmem
          · exact hcard
          · exact hcls it hmem
      · simp [cardsOf, hcards]

/-- In a `c2`-pair-free segment no suffix can start an occurrence of a
pattern beginning `<` then `c2`, whatever follows the segment. -/
theorem pairFree_no_pat {c2 : Char} (q : Str) : ∀ (a : Str), pairFree c2 a = true →
    ∀ (b : Str), b <:+ a → b ≠ [] → ∀ (x : Str), ¬ (('<' :: c2 :: q) <+: (b ++ x)) := by
  intro a
  induction a with
  | nil => intro _ b hb hne _; exact absurd (List.suffix_nil.mp hb) hne
  | cons c a' ih =>
    intro h b hb hne x
    rcases List.suffix_cons_iff.mp hb with hb1 | hb2
    · subst hb1
      by_cases hc : c = '<'
      · subst hc
        cases a' with
        | nil => rw [pairFree_lt_nil] at h; exact Bool.noConfusion h
        | cons d as_ =>
          rw [pairFree_lt_cons, Bool.and_eq_true] at h
          obtain ⟨hd, _⟩ := h
          intro hpre
          rw [show (('<' :: d :: as_) ++ x : Str) = '<' :: d :: (as_ ++ x) by simp] at hpre
          have h2 := (List.cons_prefix_cons.mp hpre).2
          have h3 : c2 = d := (List.cons_prefix_cons.mp h2).1
          have : d ≠ c2 := by simpa using hd
          exact this h3.symm
      · intro hpre
        rw [show ((c :: a') ++ x : Str) = c :: (a' ++ x) by simp] at hpre
        exact hc ((List.cons_prefix_cons.mp hpre).1).symm
    · exact ih (pairFree_tail h) b hb2 hne x

/-- A text whose drop at `i` starts with `p` has `p` laid out right after
its first `i` characters. -/
theorem take_of_prefix_drop {s p : Str} {i : Nat} (h : p <+: s.drop i) :
    s.take (i + p.length) = s.take i ++ p := by
  rw [List.take_add]
  congr 1
  rcases h with ⟨t, ht⟩
  rw [← ht, List.take_left]

/-- A prefix occurrence lying inside a region where two texts agree
transfers from one text to the other. -/
theorem prefix_drop_transfer {s1 s2 p : Str} {n j : Nat}
    (hagree : s1.take n = s2.take n) (hj : j + p.length ≤ n)
    (h : p <+: s2.drop j) : p <+: s1.drop j := by
  have h1 : p <+: (s2.drop j).take (n - j) := by
    rcases h with ⟨t, ht⟩
    refine ⟨t.take (n - j - p.length), ?_⟩
    have hp : p.take (n - j) = p := List.take_of_length_le (by omega)
    rw [← ht, List.take_append_eq_append_take, hp]
  have h2 : (s2.drop j).take (n - j) = (s2.take n).drop j := (List.drop_take n j s2).symm
  have h3 : (s1.take n).drop j = (s1.drop j).take (n - j) := List.drop_take n j s1
  rw [h2, ← hagree, h3] at h1
  exact h1.trans (List.take_prefix _ _)

/-- A clean generated region has no `<` followed by `!`, so no marker can
occur in it or straddling its end. -/
theorem seg_pairFree_bang : ∀ (items : List Item), (∀ it ∈ items, itemClean it) →
    pairFree '!' (seg items) = true := by
  intro items
  induction items with
  | nil => intro _; rfl
  | cons it rest ih =>
    intro hcl
    have hit := hcl it (List.mem_cons_self _ _)
    have hrest := fun x hx => hcl x (List.mem_cons_of_mem _ hx)
    cases rest with
    | nil => exact linePairFreeBang it hit
    | cons it2 rest2 =>
      rw [show seg (it :: it2 :: rest2) =
        joinSep ['\n'] (itemLines it) ++ '\n' :: seg (it2 :: rest2) from rfl]
      rw [show ('\n' :: seg (it2 :: rest2) : Str) = ['\n'] ++ seg (it2 :: rest2) from rfl]
      exact pairFree_append (linePairFreeBang it hit)
        (pairFree_append (by decide) (ih hrest))

/-- The engine's region output, in terms of `seg`. -/
theorem generate_entries_html_eq (entries : List (Str × Str)) (hne : entries ≠ [])
    {items : List Item}
    (hitems : itemsOf entries (sortRevStr (dictKeys entries)) none = some items) :
    generate_entries_html entries = some (seg items) := by
  rw [seg_eq]
  cases entries with
  | nil => exact absurd rfl hne
  | cons p rest =>
    show (match itemsOf (p :: rest) (sortRevStr (dictKeys (p :: rest))) none with
      | none => none
      | some items => some (joinSep ['\n'] (items.flatMap itemLines))) =
      some (joinSep ['\n'] (items.flatMap itemLines))
    rw [hitems]

/-- Parsing the document written by the splice recovers exactly the cards
of the regenerated region. -/
theorem parse_update (html G : Str) (si ei : Nat)
    (hs : findSub ENTRY_START html = some si)
    (he : findSub ENTRY_END html = some ei)
    (hle : si + ENTRY_START.length ≤ ei)
    (items : List Item)
    (hG : G = seg items)
    (hcl : ∀ it ∈ items, itemClean it) :
    parse_existing_entries
      (html.take (si + ENTRY_START.length) ++ G ++ sL "\n  " ++ html.drop ei) =
      (cardsOf items).foldl (fun d p => dictInsert d p.1 p.2) [] := by
  obtain ⟨hpreS, hlenS⟩ := findSub_some hs
  obtain ⟨hpreE, hlenE⟩ := findSub_some he
  have hSL : ENTRY_START.length = 22 := rfl
  have hEL : ENTRY_END.length = 23 := rfl
  have hN3 : (sL "\n  ").length = 3 := rfl
  have hlen1 : (html.take (si + ENTRY_START.length)).length = si + ENTRY_START.length := by
    rw [List.length_take]
    omega
  have hlensi : (html.take si).length = si := by
    rw [List.length_take]
    omega
  have htake : html.take (si + ENTRY_START.length) = html.take si ++ ENTRY_START :=
    take_of_prefix_drop hpreS
  have hagree : html.take (si + ENTRY_START.length) =
      (html.take (si + ENTRY_START.length) ++ G ++ sL "\n  " ++ html.drop ei).take
        (si + ENTRY_START.length) := by
    conv_rhs => rw [show (html.take (si + ENTRY_START.length) ++ G ++ sL "\n  " ++
      html.drop ei) =
      html.take (si + ENTRY_START.length) ++ (G ++ (sL "\n  " ++ html.drop ei)) by
        simp [List.append_assoc]]
    rw [List.take_left' hlen1]
  have hstart' : findSub ENTRY_START
      (html.take (si + ENTRY_START.length) ++ G ++ sL "\n  " ++ html.drop ei) = some si := by
    apply findSub_of_first
    · rw [show (html.take (si + ENTRY_START.length) ++ G ++ sL "\n  " ++ html.drop ei) =
        html.take si ++ (ENTRY_START ++ (G ++ (sL "\n  " ++ html.drop ei))) by
          rw [htake]; simp [List.append_assoc]]
      rw [List.drop_left' hlensi]
      exact List.prefix_append _ _
    · intro j hj hpre
      have htr : ENTRY_START <+: html.drop j :=
        prefix_drop_transfer hagree (by omega) hpre
      exact findSub_first hs j hj htr
  have hPlen : ((html.take (si + ENTRY_START.length) ++ G) ++ sL "\n  ").length =
      si + ENTRY_START.length + G.length + 3 := by
    simp only [List.length_append, hlen1, hN3]
  have hend' : findSub ENTRY_END
      (html.take (si + ENTRY_START.length) ++ G ++ sL "\n  " ++ html.drop ei) =
      some (si + ENTRY_START.length + G.length + 3) := by
    apply findSub_of_first
    · rw [show (html.take (si + ENTRY_START.length) ++ G ++ sL "\n  " ++ html.drop ei) =
        ((html.take (si + ENTRY_START.length) ++ G) ++ sL "\n  ") ++ html.drop ei by
          simp [List.append_assoc]]
      rw [List.drop_left' hPlen]
      exact hpreE
    · intro j hj hpre
      by_cases hj1 : j + ENTRY_END.length ≤ si + ENTRY_START.length
      · have htr : ENTRY_END <+: html.drop j := prefix_drop_transfer hagree hj1 hpre
        exact findSub_first he j (by omega) htr
      · have hjsi : si ≤ j := by omega
        have hnew3 : (html.take (si + ENTRY_START.length) ++ G ++ sL "\n  " ++
            html.drop ei) =
            html.take si ++ ((ENTRY_START ++ (G ++ sL "\n  ")) ++ html.drop ei) := by
          rw [htake]; simp [List.append_assoc]
        have hUlen : (ENTRY_START ++ (G ++ sL "\n  ")).length = 22 + (G.length + 3) := by
          simp only [List.length_append, hSL, hN3]
        have hdropj : (html.take (si + ENTRY_START.length) ++ G ++ sL "\n  " ++
            html.drop ei).drop j =
            ((ENTRY_START ++ (G ++ sL "\n  ")).drop (j - si)) ++ html.drop ei := by
          rw [hnew3, List.drop_append_eq_append_drop,
            List.drop_eq_nil_of_le (show (html.take si).length ≤ j by omega),
            List.nil_append, hlensi, List.drop_append_eq_append_drop,
            show j - si - (ENTRY_START ++ (G ++ sL "\n  ")).length = 0 by
              rw [hUlen]; omega,
            List.drop_zero]
        rw [hdropj] at hpre
        by_cases hjeq : j = si
        · subst hjeq
          rw [Nat.sub_self, List.drop_zero] at hpre
          rcases hpre with ⟨t, ht⟩
          have h6 : ENTRY_END.take 6 = ENTRY_START.take 6 := by
            have e1 : (ENTRY_END ++ t).take 6 = ENTRY_END.take 6 :=
              List.take_append_of_le_length (by rw [hEL]; omega)
            have e2 : (((ENTRY_START ++ (G ++ sL "\n  ")) ++ html.drop ei)).take 6 =
                ENTRY_START.take 6 := by
              rw [show ((ENTRY_START ++ (G ++ sL "\n  ")) ++ html.drop ei) =
                ENTRY_START ++ ((G ++ sL "\n  ") ++ html.drop ei) by
                  simp [List.append_assoc]]
              exact List.take_append_of_le_length (by rw [hSL]; omega)
            rw [← e1, ht, e2]
          exact absurd h6 (by decide)
        · have hpf : pairFree '!' ((ENTRY_START ++ (G ++ sL "\n  ")).drop 1) = true := by
            rw [List.drop_append_eq_append_drop,
              show 1 - ENTRY_START.length = 0 by rw [hSL],
              List.drop_zero]
            exact pairFree_append (by decide)
              (pairFree_append (hG ▸ seg_pairFree_bang items hcl) (by decide))
          have hsuffix : (ENTRY_START ++ (G ++ sL "\n  ")).drop (j - si) <:+
              (ENTRY_START ++ (G ++ sL "\n  ")).drop 1 := by
            have hdd : ((ENTRY_START ++ (G ++ sL "\n  ")).drop 1).drop (j - si - 1) =
                (ENTRY_START ++ (G ++ sL "\n  ")).drop (j - si) := by
              rw [List.drop_drop]
              congr 1
              omega
            rw [← hdd]
            exact List.drop_suffix _ _
          have hbne : (ENTRY_START ++ (G ++ sL "\n  ")).drop (j - si) ≠ [] := by
            intro hc
            have hlc := congrArg List.length hc
            rw [List.length_drop, hUlen] at hlc
            simp only [List.length_nil] at hlc
            omega
          exact pairFree_no_pat (sL "-- /DAILY-ENTRIES -->")
            ((ENTRY_START ++ (G ++ sL "\n  ")).drop 1) hpf
            ((ENTRY_START ++ (G ++ sL "\n  ")).drop (j - si)) hsuffix hbne (html.drop ei)
            (show ('<' :: '!' :: sL "-- /DAILY-ENTRIES -->" : Str) <+: _ from hpre)
  unfold parse_existing_entries
  rw [hstart', hend']
  dsimp only
  have hcontent : ((html.take (si + ENTRY_START.length) ++ G ++ sL "\n  " ++
      html.drop ei).take (si + ENTRY_START.length + G.length + 3)).drop
        (si + ENTRY_START.length) = G ++ sL "\n  " := by
    rw [show (html.take (si + ENTRY_START.length) ++ G ++ sL "\n  " ++ html.drop ei) =
      ((html.take (si + ENTRY_START.length) ++ G) ++ sL "\n  ") ++ html.drop ei by
        simp [List.append_assoc]]
    rw [List.take_left' hPlen]
    rw [show ((html.take (si + ENTRY_START.length) ++ G) ++ sL "\n  ") =
      html.take (si + ENTRY_START.length) ++ (G ++ sL "\n  ") by simp [List.append_assoc]]
    rw [List.drop_left' hlen1]
  rw [hcontent, hG, scanCards_seg items hcl (sL "\n  ")]
  rw [show scanCards (sL "\n  ") = [] from rfl]
  rw [List.append_nil]

/-! ## Claim C1: the regenerate-and-splice round trip -/

/-- C1 (amended): for a document whose start marker's first occurrence
precedes its end marker's first occurrence, a zero-padded valid target
date, a clean description, and a prior document all of whose recovered
entries have zero-padded valid dates and clean descriptions, update_index
succeeds and the map recovered from the new document is exactly the prior
map with the target entry inserted or replaced; no entry is lost,
duplicated, or changed. -/
theorem C1_roundtrip (html date_str desc : Str) (si ei : Nat)
    (hs : findSub ENTRY_START html = some si)
    (he : findSub ENTRY_END html = some ei)
    (hle : si + ENTRY_START.length ≤ ei)
    (hdk : paddedKey date_str) (hdc : cleanDesc desc)
    (hold : ∀ p, p ∈ parse_existing_entries html → paddedKey p.1 ∧ cleanDesc p.2) :
    ∃ new, update_index html date_str desc = UpdateResult.ok new ∧
      (dictKeys (parse_existing_entries new)).Nodup ∧
      ∀ k, dictLookup (parse_existing_entries new) k =
        dictLookup (dictInsert (parse_existing_entries html) date_str desc) k := by
  have hentP : ∀ p, p ∈ dictInsert (parse_existing_entries html) date_str desc →
      paddedKey p.1 ∧ cleanDesc p.2 := by
    intro p hp
    rcases mem_dictInsert hp with rfl | hp2
    · exact ⟨hdk, hdc⟩
    · exact hold p hp2
  have hnodE : (dictKeys (dictInsert (parse_existing_entries html) date_str desc)).Nodup :=
    dictInsert_nodup _ _ _ (parse_keys_nodup html)
  have hperm := sortRevStr_perm (dictKeys (dictInsert (parse_existing_entries html)
    date_str desc))
  have hksmem : ∀ k, k ∈ sortRevStr (dictKeys (dictInsert
      (parse_existing_entries html) date_str desc)) → paddedKey k := by
    intro k hk
    have hk2 := hperm.mem_iff.mp hk
    rcases List.mem_map.mp hk2 with ⟨p, hpmem, hpk⟩
    exact hpk ▸ (hentP p hpmem).1
  have hksnodup : (sortRevStr (dictKeys (dictInsert (parse_existing_entries html)
      date_str desc))).Nodup := hperm.nodup_iff.mpr hnodE
  obtain ⟨items, hitems, hcl, hcards⟩ :=
    itemsOf_clean_cards (dictInsert (parse_existing_entries html) date_str desc)
      (fun p hp => (hentP p hp).2) _ hksmem none
  have hgen := generate_entries_html_eq (dictInsert (parse_existing_entries html)
    date_str desc) (dictInsert_ne_nil _ _ _) hitems
  have hupd : update_index html date_str desc = UpdateResult.ok
      (html.take (si + ENTRY_START.length) ++ seg items ++ sL "\n  " ++ html.drop ei) := by
    unfold update_index
    rw [hs, he]
    dsimp only
    rw [hgen]
  have hnd : (dictKeys (([] : List (Str × Str)) ++ cardsOf items)).Nodup := by
    rw [List.nil_append, hcards, dictKeys_map_self]
    exact hksnodup
  have hparse : parse_existing_entries
      (html.take (si + ENTRY_START.length) ++ seg items ++ sL "\n  " ++ html.drop ei) =
      cardsOf items := by
    rw [parse_update html (seg items) si ei hs he hle items rfl hcl,
      foldl_dictInsert_eq _ [] hnd, List.nil_append]
  refine ⟨_, hupd, ?_, ?_⟩
  · rw [hparse, hcards, dictKeys_map_self]
    exact hksnodup
  · intro k
    rw [hparse, hcards, dictLookup_map_self]
    by_cases hkE : k ∈ dictKeys (dictInsert (parse_existing_entries html) date_str desc)
    · have hkks := hperm.mem_iff.mpr hkE
      obtain ⟨v, hv⟩ := dictLookup_isSome_of_mem hkE
      rw [if_pos hkks, hv]
      simp
    · have hkks : ¬ k ∈ sortRevStr (dictKeys (dictInsert (parse_existing_entries html)
          date_str desc)) := fun hc => hkE (hperm.mem_iff.mp hc)
      rw [if_neg hkks, dictLookup_none_of_not_mem hkE]

/-- Witness for C1 on a concrete minimal document. -/
theorem C1_roundtrip_witness :
    ∃ new, update_index
        (sL "<html><!-- DAILY-ENTRIES --><!-- /DAILY-ENTRIES --></html>")
        (sL "2026-02-18") (sL "hello") = UpdateResult.ok new ∧
      (dictKeys (parse_existing_entries new)).Nodup ∧
      ∀ k, dictLookup (parse_existing_entries new) k =
        dictLookup (dictInsert (parse_existing_entries
          (sL "<html><!-- DAILY-ENTRIES --><!-- /DAILY-ENTRIES --></html>"))
          (sL "2026-02-18") (sL "hello")) k :=
  C1_roundtrip (sL "<html><!-- DAILY-ENTRIES --><!-- /DAILY-ENTRIES --></html>")
    (sL "2026-02-18") (sL "hello") 6 28 rfl rfl (by decide)
    ⟨2026, 2, 18, ⟨by decide, by decide, by decide, by decide, by decide, by decide⟩,
      by decide⟩
    ⟨by decide, rfl⟩
    (by
      intro p hp
      rw [show parse_existing_entries
        (sL "<html><!-- DAILY-ENTRIES --><!-- /DAILY-ENTRIES --></html>") = [] from rfl] at hp
      exact absurd hp (List.not_mem_nil p))

end PD
